import Mathlib

/-!
Verification of the psim hash table, VM opcode handlers, string interner and
garbage-collector phases, shallowly embedded from the C sources
(src/table.c, src/vm.c, src/object.c, src/value.c, src/memory.c,
src/compiler.c).

Modelling conventions:
* machine pointers are modelled by natural-number identities (`sid` for
  `ObjString*`, `oid` for `Obj*`); pointer equality in C becomes equality of
  those identities;
* `uint32_t` arithmetic carries an explicit `% 4294967296`;
* the unbounded probe loops of `findEntry` / `tableFindString` are embedded
  with an explicit fuel argument; `none` marks fuel exhaustion (or an
  out-of-bounds read), which is proved unreachable for tables built through
  the public API;
* C numbers are modelled as `Int` (the `INTEGER_ONLY` / `int64_t` pipeline of
  src/value.h and src/vm.c; signed overflow, being undefined behaviour, is not
  modelled).
-/

namespace Psim

/-- An `ObjString` heap object (src/include/object.h): `sid` models the
pointer identity of the object, `chars` the byte content, `hash` the stored
FNV-1a hash. -/
structure ObjString where
  sid : Nat
  chars : List Nat
  hash : Nat
deriving DecidableEq

/-- The tagged `Value` union of src/include/value.h.  In the vm.c snapshot the
only heap objects that reach the stack or the tables are strings, so the
`VAL_OBJ` case carries an `ObjString` directly. -/
inductive Value where
  | vBool : Bool → Value
  | vNil : Value
  | vNumber : Int → Value
  | vObj : ObjString → Value
deriving DecidableEq

/-- `IS_NIL` (src/include/value.h). -/
def isNil : Value → Bool
  | .vNil => true
  | _ => false

/-- One slot of the open-addressing table (src/include/table.h). -/
structure Entry where
  key : Option ObjString
  value : Value
deriving DecidableEq

/-- A slot that is genuinely empty: `key == NULL` and a nil value. -/
def trulyEmpty (e : Entry) : Bool := e.key.isNone && isNil e.value

/-- A tombstone left behind by `tableDelete`: `key == NULL`, non-nil value. -/
def isTombstone (e : Entry) : Bool := e.key.isNone && !isNil e.value

/-- The hash table of src/table.c.  `entries` is the backing array. -/
structure Table where
  count : Nat
  capacity : Nat
  entries : List Entry
deriving DecidableEq

/-- `initTable` (src/table.c:24). -/
def initTable : Table := ⟨0, 0, []⟩

/-- The pointer comparison `entry->key == key` of findEntry, expressed on the
modelled pointer identities. -/
def keyMatches (key : ObjString) (e : Entry) : Bool :=
  match e.key with
  | some k => k.sid = key.sid
  | none => false

/-- The probe loop of `findEntry` (src/table.c:45-77), with explicit fuel.
Returns the index of the slot the C function would return a pointer to;
`none` only on fuel exhaustion or an out-of-bounds read, both unreachable for
tables maintained by the API.  `tomb` is the `tombstone` local variable. -/
def findEntryGo (es : List Entry) (cap : Nat) (key : ObjString) :
    Nat → Nat → Option Nat → Option Nat
  | 0, _, _ => none
  | fuel+1, index, tomb =>
    match es[index]? with
    | none => none
    | some e =>
      if e.key.isNone then
        if isNil e.value then some (tomb.getD index)
        else findEntryGo es cap key fuel ((index + 1) % cap) (some (tomb.getD index))
      else if keyMatches key e then some index
      else findEntryGo es cap key fuel ((index + 1) % cap) tomb

/-- `findEntry` (src/table.c:45): start at `hash % capacity`; `capacity` steps
of fuel are enough because the probe sequence visits every slot once. -/
def findEntry (t : Table) (key : ObjString) : Option Nat :=
  findEntryGo t.entries t.capacity key t.capacity (key.hash % t.capacity) none

/-- `GROW_CAPACITY` (src/include/memory.h:23). -/
def growCapacity (c : Nat) : Nat := if c < 8 then 8 else 2 * c

/-- One iteration of the copy loop in `adjustCapacity` (src/table.c:95-105):
live entries are re-inserted into the fresh array and `count` is rebuilt.  The
`none` fallback of the probe is unreachable for API-maintained tables. -/
def adjustStep (cap : Nat) (acc : Nat × List Entry) (e : Entry) : Nat × List Entry :=
  match e.key with
  | none => acc
  | some k =>
    match findEntryGo acc.2 cap k cap (k.hash % cap) none with
    | some i => (acc.1 + 1, acc.2.set i ⟨some k, e.value⟩)
    | none => acc

/-- `adjustCapacity` (src/table.c:83-113). -/
def adjustCapacity (t : Table) (cap : Nat) : Table :=
  let res := t.entries.foldl (adjustStep cap) (0, List.replicate cap ⟨none, .vNil⟩)
  ⟨res.1, cap, res.2⟩

/-- `tableSet` (src/table.c:119-137).  The C load-factor test
`count + 1 > capacity * 0.75` is exact integer arithmetic here; the two agree
on every capacity the API produces (0 and multiples of 8). -/
def tableSet (t : Table) (key : ObjString) (v : Value) : Bool × Table :=
  let t := if 4 * (t.count + 1) > 3 * t.capacity
           then adjustCapacity t (growCapacity t.capacity) else t
  match findEntry t key with
  | none => (false, t)
  | some i =>
    match t.entries[i]? with
    | none => (false, t)
    | some e =>
      let isNewKey := e.key.isNone
      let count := if isNewKey && isNil e.value then t.count + 1 else t.count
      (isNewKey, ⟨count, t.capacity, t.entries.set i ⟨some key, v⟩⟩)

/-- `tableGet` (src/table.c:155-166). -/
def tableGet (t : Table) (key : ObjString) : Option Value :=
  if t.count = 0 then none
  else
    match findEntry t key with
    | none => none
    | some i =>
      match t.entries[i]? with
      | none => none
      | some e => if e.key.isNone then none else some e.value

/-- `tableDelete` (src/table.c:173-187): place a tombstone, keep `count`. -/
def tableDelete (t : Table) (key : ObjString) : Bool × Table :=
  if t.count = 0 then (false, t)
  else
    match findEntry t key with
    | none => (false, t)
    | some i =>
      match t.entries[i]? with
      | none => (false, t)
      | some e =>
        if e.key.isNone then (false, t)
        else (true, ⟨t.count, t.capacity, t.entries.set i ⟨none, .vBool true⟩⟩)

/-- The probe loop of `tableFindString` (src/table.c:200-219), fuelled.
`none` is fuel exhaustion; `some none` models the C `return NULL` at a truly
empty slot; `some (some k)` a content match.  The `memcmp` of `length` bytes
is `take length`. -/
def findStringGo (es : List Entry) (cap : Nat) (chars : List Nat) (length : Nat)
    (hash : Nat) : Nat → Nat → Option (Option ObjString)
  | 0, _ => none
  | fuel+1, index =>
    match es[index]? with
    | none => none
    | some e =>
      match e.key with
      | none =>
        if isNil e.value then some none
        else findStringGo es cap chars length hash fuel ((index + 1) % cap)
      | some k =>
        if k.chars.length = length && k.hash = hash
            && decide (k.chars = chars.take length) then some (some k)
        else findStringGo es cap chars length hash fuel ((index + 1) % cap)

/-- `tableFindString` (src/table.c:192-220). -/
def tableFindString (t : Table) (chars : List Nat) (length : Nat) (hash : Nat) :
    Option ObjString :=
  if t.count = 0 then none
  else (findStringGo t.entries t.capacity chars length hash t.capacity
          (hash % t.capacity)).join

/-- One iteration of the `tableRemoveWhite` loop (src/table.c:241-246):
`if (entry->key != NULL && !entry->key->obj.isMarked) tableDelete(...)`. -/
def removeWhiteStep (marked : Nat → Bool) (t : Table) (i : Nat) : Table :=
  match t.entries[i]? with
  | some e =>
    match e.key with
    | some k => if !(marked k.sid) then (tableDelete t k).2 else t
    | none => t
  | none => t

/-- `tableRemoveWhite` (src/table.c:239-247).  `marked sid` stands for the C
read `entry->key->obj.isMarked`. -/
def tableRemoveWhite (marked : Nat → Bool) (t : Table) : Table :=
  (List.range t.capacity).foldl (removeWhiteStep marked) t

/-! ## The probe geometry: positions along the circular scan -/

/-- Number of forward steps of the circular probe from slot `h` to slot `i`
(both below `cap`). -/
def dist (cap h i : Nat) : Nat := (i + cap - h) % cap

theorem mod_lt_of_pos (x : Nat) {cap : Nat} (hc : 0 < cap) : x % cap < cap :=
  Nat.mod_lt _ hc

theorem dist_lt {cap h i : Nat} (hc : 0 < cap) : dist cap h i < cap :=
  Nat.mod_lt _ hc

/-- Stepping the probe index commutes with the position formula. -/
theorem pos_step (home j cap : Nat) :
    ((home + j) % cap + 1) % cap = (home + (j + 1)) % cap := by
  rw [Nat.mod_add_mod, Nat.add_assoc]

/-- Walking `dist cap h i` steps from `h` lands on `i`. -/
theorem pos_dist {cap h i : Nat} (hh : h < cap) (hi : i < cap) :
    (h + dist cap h i) % cap = i := by
  unfold dist
  have h1 : (h + (i + cap - h) % cap) % cap = (h + (i + cap - h)) % cap :=
    Nat.add_mod_mod _ _ _
  have h2 : h + (i + cap - h) = i + cap := by omega
  rw [h1, h2, Nat.add_mod_right, Nat.mod_eq_of_lt hi]

/-- Positions along the first `cap` probe steps are pairwise distinct. -/
theorem pos_inj {cap h : Nat} {j₁ j₂ : Nat} (h₁ : j₁ < cap) (h₂ : j₂ < cap)
    (he : (h + j₁) % cap = (h + j₂) % cap) : j₁ = j₂ := by
  rcases Nat.le_total j₁ j₂ with hle | hle
  · have hd : cap ∣ (h + j₂) - (h + j₁) :=
      (Nat.modEq_iff_dvd' (by omega)).mp he
    have h3 : (h + j₂) - (h + j₁) = j₂ - j₁ := by omega
    rw [h3] at hd
    have hz : j₂ - j₁ = 0 := Nat.eq_zero_of_dvd_of_lt hd (by omega)
    omega
  · have hd : cap ∣ (h + j₁) - (h + j₂) :=
      (Nat.modEq_iff_dvd' (by omega)).mp he.symm
    have h3 : (h + j₁) - (h + j₂) = j₁ - j₂ := by omega
    rw [h3] at hd
    have hz : j₁ - j₂ = 0 := Nat.eq_zero_of_dvd_of_lt hd (by omega)
    omega

/-! ## The table invariant

Every table produced by `initTable` / `tableSet` / `tableDelete` satisfies
this bundle; it is exactly what makes the unbounded C probe loops safe. -/

/-- The probe home slot of a key. -/
def home (cap : Nat) (k : ObjString) : Nat := k.hash % cap

/-- Invariant of API-maintained tables:
`len`: the backing array has `capacity` slots;
`count_eq`: `count` counts the slots that are not truly empty (live keys plus
tombstones);
`load`: the 75% load factor is respected;
`uniq`: a pointer identity occurs as a key in at most one slot;
`probe`: the probe path from a stored key's home slot to its slot contains no
truly empty slot (so linear probing can find it). -/
structure TableINV (t : Table) : Prop where
  len : t.entries.length = t.capacity
  count_eq : t.count = t.entries.countP (fun e => !trulyEmpty e)
  load : 4 * t.count ≤ 3 * t.capacity
  uniq : ∀ (i j : Nat) (ei ej : Entry) (ki kj : ObjString),
    t.entries[i]? = some ei → ei.key = some ki →
    t.entries[j]? = some ej → ej.key = some kj → ki.sid = kj.sid → i = j
  probe : ∀ (i : Nat) (e : Entry) (k : ObjString), t.entries[i]? = some e → e.key = some k →
    ∀ j, j < dist t.capacity (home t.capacity k) i →
      ∃ e2, t.entries[(home t.capacity k + j) % t.capacity]? = some e2 ∧
        trulyEmpty e2 = false

theorem initTable_inv : TableINV initTable := by
  refine ⟨rfl, rfl, by decide, ?_, ?_⟩
  · intro i j ei ej ki kj hi
    simp [initTable] at hi
  · intro i e k hi
    simp [initTable] at hi

/-- A capacity-zero invariant table is the fresh table. -/
theorem inv_cap_zero {t : Table} (hinv : TableINV t) (hc : t.capacity = 0) :
    t.count = 0 ∧ t.entries = [] := by
  have h1 : t.entries = [] := List.length_eq_zero.mp (hinv.len.trans hc)
  refine ⟨?_, h1⟩
  rw [hinv.count_eq, h1]
  rfl

/-- Under the invariant a non-trivial table always retains a truly empty
slot: the load factor keeps `count` (= non-empty slots) below `capacity`. -/
theorem empty_exists {t : Table} (hinv : TableINV t) (hc : 0 < t.capacity) :
    ∃ (i : Nat) (e : Entry), t.entries[i]? = some e ∧ trulyEmpty e = true := by
  by_contra hno
  push_neg at hno
  have hall : ∀ e ∈ t.entries, (!trulyEmpty e) = true := by
    intro e he
    obtain ⟨i, hi, hget⟩ := List.mem_iff_getElem.mp he
    have hg : t.entries[i]? = some e := by
      rw [List.getElem?_eq_getElem hi, hget]
    have := hno i e hg
    simp only [Bool.not_eq_true] at this
    simp [this]
  have hcount : t.entries.countP (fun e => !trulyEmpty e) = t.entries.length :=
    List.countP_eq_length.mpr hall
  have h1 : t.count = t.capacity := by rw [hinv.count_eq, hcount, hinv.len]
  have := hinv.load
  omega

/-! ## Walk lemmas for the probe loops -/

/-- If the slot `d` probe steps from the query key's home holds a matching
key, and every slot strictly before it on the path is neither truly empty nor
a match, then the probe returns exactly that slot. -/
theorem findEntryGo_found {es : List Entry} {cap : Nat} {key : ObjString} {d : Nat}
    {eslot : Entry}
    (hs : es[(key.hash % cap + d) % cap]? = some eslot)
    (hmatch : keyMatches key eslot = true)
    (hpath : ∀ j, j < d → ∃ e : Entry, es[(key.hash % cap + j) % cap]? = some e ∧
      trulyEmpty e = false ∧ keyMatches key e = false) :
    ∀ (fuel j : Nat) (tomb : Option Nat), j ≤ d → d - j < fuel →
      findEntryGo es cap key fuel ((key.hash % cap + j) % cap) tomb
        = some ((key.hash % cap + d) % cap) := by
  intro fuel
  induction fuel with
  | zero => intro j tomb hj hf; omega
  | succ n ih =>
    intro j tomb hj hf
    by_cases hjd : j = d
    · subst hjd
      have hk : eslot.key.isNone = false := by
        unfold keyMatches at hmatch
        cases hkey : eslot.key with
        | none => rw [hkey] at hmatch; cases hmatch
        | some k0 => rfl
      simp only [findEntryGo, hs, hk, Bool.false_eq_true, if_false, hmatch, if_true]
    · have hjlt : j < d := by omega
      obtain ⟨e, hget, hne, hnm⟩ := hpath j hjlt
      cases hkey : e.key with
      | none =>
        have h1 : e.key.isNone = true := by rw [hkey]; rfl
        have h2 : isNil e.value = false := by
          unfold trulyEmpty at hne
          rw [h1] at hne
          simpa using hne
        simp only [findEntryGo, hget, h1, if_true, h2, Bool.false_eq_true, if_false]
        rw [pos_step]
        exact ih (j + 1) _ (by omega) (by omega)
      | some k0 =>
        have h1 : e.key.isNone = false := by rw [hkey]; rfl
        simp only [findEntryGo, hget, h1, Bool.false_eq_true, if_false, hnm]
        rw [pos_step]
        exact ih (j + 1) tomb (by omega) (by omega)

/-- Result specification of the probe when the key is absent from the path:
the walk stops at the first truly empty slot (at distance `de`) and returns
the first tombstone met before it, if any, otherwise that empty slot. -/
theorem findEntryGo_absent {es : List Entry} {cap : Nat} {key : ObjString} {de : Nat}
    {ee : Entry}
    (he : es[(key.hash % cap + de) % cap]? = some ee)
    (hee : trulyEmpty ee = true)
    (hpath : ∀ j, j < de → ∃ e : Entry, es[(key.hash % cap + j) % cap]? = some e ∧
      trulyEmpty e = false ∧ keyMatches key e = false) :
    ∀ (fuel j : Nat) (tomb : Option Nat), j ≤ de → de - j < fuel →
      ((tomb = none ∧ ∀ j2, j2 < j → ∃ e : Entry,
          es[(key.hash % cap + j2) % cap]? = some e ∧ e.key.isSome = true) ∨
       (∃ tj, tj < j ∧ tomb = some ((key.hash % cap + tj) % cap) ∧
          ∃ et : Entry, es[(key.hash % cap + tj) % cap]? = some et ∧
            isTombstone et = true)) →
      ∃ p, p ≤ de ∧
        findEntryGo es cap key fuel ((key.hash % cap + j) % cap) tomb
          = some ((key.hash % cap + p) % cap) ∧
        ((∃ et : Entry, es[(key.hash % cap + p) % cap]? = some et ∧
            isTombstone et = true) ∨
         (p = de ∧ ∀ j2, j2 < de → ∃ e : Entry,
            es[(key.hash % cap + j2) % cap]? = some e ∧ e.key.isSome = true)) := by
  intro fuel
  induction fuel with
  | zero => intro j tomb hj hf; omega
  | succ n ih =>
    intro j tomb hj hf hspec
    by_cases hjd : j = de
    · subst hjd
      have h1 : ee.key.isNone = true := by
        unfold trulyEmpty at hee
        exact (Bool.and_eq_true .. ▸ hee).1
      have h2 : isNil ee.value = true := by
        unfold trulyEmpty at hee
        exact (Bool.and_eq_true .. ▸ hee).2
      rcases hspec with ⟨htn, hkeys⟩ | ⟨tj, htj, hte, et, hget, htb⟩
      · subst htn
        refine ⟨j, le_refl _, ?_, Or.inr ⟨rfl, hkeys⟩⟩
        simp only [findEntryGo, he, h1, if_true, h2, Option.getD_none]
      · refine ⟨tj, by omega, ?_, Or.inl ⟨et, hget, htb⟩⟩
        subst hte
        simp only [findEntryGo, he, h1, if_true, h2, Option.getD_some]
    · have hjlt : j < de := by omega
      obtain ⟨e, hget, hne, hnm⟩ := hpath j hjlt
      cases hkey : e.key with
      | none =>
        have h1 : e.key.isNone = true := by rw [hkey]; rfl
        have h2 : isNil e.value = false := by
          unfold trulyEmpty at hne
          rw [h1] at hne
          simpa using hne
        have hnext := ih (j + 1) (some (tomb.getD ((key.hash % cap + j) % cap)))
          (by omega) (by omega) ?_
        · obtain ⟨p, hp, hrun, hres⟩ := hnext
          refine ⟨p, hp, ?_, hres⟩
          simp only [findEntryGo, hget, h1, if_true, h2, Bool.false_eq_true, if_false]
          rw [pos_step]
          exact hrun
        · rcases hspec with ⟨htn, hkeys⟩ | ⟨tj, htj, hte, et, hget2, htb⟩
          · subst htn
            refine Or.inr ⟨j, by omega, rfl, e, hget, ?_⟩
            unfold isTombstone
            rw [h1, h2]
            rfl
          · subst hte
            exact Or.inr ⟨tj, by omega, rfl, et, hget2, htb⟩
      | some k0 =>
        have h1 : e.key.isNone = false := by rw [hkey]; rfl
        have hnext := ih (j + 1) tomb (by omega) (by omega) ?_
        · obtain ⟨p, hp, hrun, hres⟩ := hnext
          refine ⟨p, hp, ?_, hres⟩
          simp only [findEntryGo, hget, h1, Bool.false_eq_true, if_false, hnm]
          rw [pos_step]
          exact hrun
        · rcases hspec with ⟨htn, hkeys⟩ | ⟨tj, htj, hte, et, hget2, htb⟩
          · refine Or.inl ⟨htn, ?_⟩
            intro j2 hj2
            by_cases hj2j : j2 = j
            · subst hj2j
              exact ⟨e, hget, by rw [hkey]; rfl⟩
            · exact hkeys j2 (by omega)
          · exact Or.inr ⟨tj, by omega, hte, et, hget2, htb⟩

/-- The probe loop terminates (returns a slot) as soon as a truly empty slot
exists at some distance `de` along the path with no empty slot before it. -/
theorem findEntryGo_terminates {es : List Entry} {cap : Nat} {key : ObjString}
    {de : Nat} {ee : Entry}
    (he : es[(key.hash % cap + de) % cap]? = some ee)
    (hee : trulyEmpty ee = true)
    (hpath : ∀ j, j < de → ∃ e : Entry, es[(key.hash % cap + j) % cap]? = some e ∧
      trulyEmpty e = false) :
    ∀ (fuel j : Nat) (tomb : Option Nat), j ≤ de → de - j < fuel →
      findEntryGo es cap key fuel ((key.hash % cap + j) % cap) tomb ≠ none := by
  intro fuel
  induction fuel with
  | zero => intro j tomb hj hf; omega
  | succ n ih =>
    intro j tomb hj hf
    by_cases hjd : j = de
    · subst hjd
      have h1 : ee.key.isNone = true := by
        unfold trulyEmpty at hee
        exact (Bool.and_eq_true .. ▸ hee).1
      have h2 : isNil ee.value = true := by
        unfold trulyEmpty at hee
        exact (Bool.and_eq_true .. ▸ hee).2
      simp only [findEntryGo, he, h1, if_true, h2]
      exact Option.some_ne_none _
    · have hjlt : j < de := by omega
      obtain ⟨e, hget, hne⟩ := hpath j hjlt
      cases hkey : e.key with
      | none =>
        have h1 : e.key.isNone = true := by rw [hkey]; rfl
        have h2 : isNil e.value = false := by
          unfold trulyEmpty at hne
          rw [h1] at hne
          simpa using hne
        simp only [findEntryGo, hget, h1, if_true, h2, Bool.false_eq_true, if_false]
        rw [pos_step]
        exact ih (j + 1) _ (by omega) (by omega)
      | some k0 =>
        have h1 : e.key.isNone = false := by rw [hkey]; rfl
        simp only [findEntryGo, hget, h1, Bool.false_eq_true, if_false]
        by_cases hm : keyMatches key e = true
        · rw [if_pos hm]
          exact Option.some_ne_none _
        · rw [if_neg hm, pos_step]
          exact ih (j + 1) tomb (by omega) (by omega)

/-- The interner probe loop of `tableFindString` terminates under the same
condition. -/
theorem findStringGo_terminates {es : List Entry} {cap : Nat} (chars : List Nat)
    (length : Nat) {hash : Nat} {de : Nat} {ee : Entry}
    (he : es[(hash % cap + de) % cap]? = some ee)
    (hee : trulyEmpty ee = true)
    (hpath : ∀ j, j < de → ∃ e : Entry, es[(hash % cap + j) % cap]? = some e ∧
      trulyEmpty e = false) :
    ∀ (fuel j : Nat), j ≤ de → de - j < fuel →
      findStringGo es cap chars length hash fuel ((hash % cap + j) % cap) ≠ none := by
  intro fuel
  induction fuel with
  | zero => intro j hj hf; omega
  | succ n ih =>
    intro j hj hf
    by_cases hjd : j = de
    · subst hjd
      have h1 : ee.key = none := by
        unfold trulyEmpty at hee
        have := (Bool.and_eq_true .. ▸ hee).1
        exact Option.isNone_iff_eq_none.mp this
      have h2 : isNil ee.value = true := by
        unfold trulyEmpty at hee
        exact (Bool.and_eq_true .. ▸ hee).2
      simp only [findStringGo, he, h1, h2, if_true]
      exact Option.some_ne_none _
    · have hjlt : j < de := by omega
      obtain ⟨e, hget, hne⟩ := hpath j hjlt
      cases hkey : e.key with
      | none =>
        have h2 : isNil e.value = false := by
          unfold trulyEmpty at hne
          rw [hkey] at hne
          simpa using hne
        simp only [findStringGo, hget, hkey, h2, Bool.false_eq_true, if_false]
        rw [pos_step]
        exact ih (j + 1) (by omega) (by omega)
      | some k0 =>
        simp only [findStringGo, hget, hkey]
        by_cases hm : (k0.chars.length = length && k0.hash = hash
            && decide (k0.chars = chars.take length)) = true
        · rw [if_pos hm]
          exact Option.some_ne_none _
        · rw [if_neg hm, pos_step]
          exact ih (j + 1) (by omega) (by omega)

/-- If the slot `d` probe steps from the queried hash's home holds a key with
matching length, hash and content, and no slot before it is truly empty or a
content match, then `findStringGo` returns that key. -/
theorem findStringGo_found {es : List Entry} {cap : Nat} {chars : List Nat}
    {length hash : Nat} {d : Nat} {esd : Entry} {ks : ObjString}
    (hs : es[(hash % cap + d) % cap]? = some esd)
    (hkey : esd.key = some ks)
    (hmatch : (ks.chars.length = length && ks.hash = hash
        && decide (ks.chars = chars.take length)) = true)
    (hpath : ∀ j, j < d → ∃ e : Entry, es[(hash % cap + j) % cap]? = some e ∧
      trulyEmpty e = false ∧
      (∀ k2 : ObjString, e.key = some k2 → (k2.chars.length = length
        && k2.hash = hash && decide (k2.chars = chars.take length)) = false)) :
    ∀ (fuel j : Nat), j ≤ d → d - j < fuel →
      findStringGo es cap chars length hash fuel ((hash % cap + j) % cap)
        = some (some ks) := by
  intro fuel
  induction fuel with
  | zero => intro j hj hf; omega
  | succ n ih =>
    intro j hj hf
    by_cases hjd : j = d
    · subst hjd
      simp only [findStringGo, hs, hkey, hmatch, if_true]
    · have hjlt : j < d := by omega
      obtain ⟨e, hget, hne, hnm⟩ := hpath j hjlt
      cases hkey2 : e.key with
      | none =>
        have h2 : isNil e.value = false := by
          unfold trulyEmpty at hne
          rw [hkey2] at hne
          simpa using hne
        simp only [findStringGo, hget, hkey2, h2, Bool.false_eq_true, if_false]
        rw [pos_step]
        exact ih (j + 1) (by omega) (by omega)
      | some k0 =>
        simp only [findStringGo, hget, hkey2, hnm k0 hkey2, Bool.false_eq_true,
          if_false]
        rw [pos_step]
        exact ih (j + 1) (by omega) (by omega)

/-! ## The probe loops under the invariant -/

theorem slot_some {t : Table} (hinv : TableINV t) {i : Nat} (hi : i < t.capacity) :
    ∃ e : Entry, t.entries[i]? = some e := by
  have hl : i < t.entries.length := by rw [hinv.len]; exact hi
  exact ⟨t.entries[i], List.getElem?_eq_getElem hl⟩

theorem slot_lt {t : Table} (hinv : TableINV t) {i : Nat} {e : Entry}
    (h : t.entries[i]? = some e) : i < t.capacity := by
  have := (List.getElem?_eq_some.mp h).1
  rw [hinv.len] at this
  exact this

/-- Along any probe path there is a first truly empty slot, within `capacity`
steps (the load factor guarantees an empty slot; the probe visits every slot
once). -/
theorem exists_first_empty {t : Table} (hinv : TableINV t) (hc : 0 < t.capacity)
    {h : Nat} (hh : h < t.capacity) :
    ∃ de, de < t.capacity ∧
      (∃ ee : Entry, t.entries[(h + de) % t.capacity]? = some ee ∧
        trulyEmpty ee = true) ∧
      ∀ j, j < de → ∃ e : Entry, t.entries[(h + j) % t.capacity]? = some e ∧
        trulyEmpty e = false := by
  classical
  obtain ⟨ei, ee, hget, hemp⟩ := empty_exists hinv hc
  have hei : ei < t.capacity := slot_lt hinv hget
  have hex : ∃ p, ∃ e : Entry, t.entries[(h + p) % t.capacity]? = some e ∧
      trulyEmpty e = true := by
    refine ⟨dist t.capacity h ei, ee, ?_, hemp⟩
    rw [pos_dist hh hei]
    exact hget
  refine ⟨Nat.find hex, ?_, Nat.find_spec hex, ?_⟩
  · have h1 : Nat.find hex ≤ dist t.capacity h ei := Nat.find_min' hex ?_
    · exact Nat.lt_of_le_of_lt h1 (dist_lt hc)
    · obtain ⟨e, he, hte⟩ := hex.choose_spec
      refine ⟨ee, ?_, hemp⟩
      rw [pos_dist hh hei]
      exact hget
  · intro j hj
    have hmin := Nat.find_min hex hj
    obtain ⟨e, he⟩ := slot_some hinv (mod_lt_of_pos _ hc : (h + j) % t.capacity < t.capacity)
    refine ⟨e, he, ?_⟩
    by_contra hcon
    exact hmin ⟨e, he, by simpa using hcon⟩

/-- Under the invariant, `findEntry` returns exactly the slot of a stored
key (queried with the very record stored there, as the C pointer identity
guarantees). -/
theorem findEntry_found_inv {t : Table} (hinv : TableINV t) {s : Nat} {es : Entry}
    {k : ObjString} (hs : t.entries[s]? = some es) (hk : es.key = some k) :
    findEntry t k = some s := by
  have hslt : s < t.capacity := slot_lt hinv hs
  have hc : 0 < t.capacity := Nat.lt_of_le_of_lt (Nat.zero_le _) hslt
  have hh : k.hash % t.capacity < t.capacity := mod_lt_of_pos _ hc
  set cap := t.capacity with hcap
  have hd : dist cap (k.hash % cap) s < cap := dist_lt hc
  have hpos : (k.hash % cap + dist cap (k.hash % cap) s) % cap = s := pos_dist hh hslt
  have hmatch : keyMatches k es = true := by
    unfold keyMatches
    rw [hk]
    simp
  have hpath : ∀ j, j < dist cap (k.hash % cap) s →
      ∃ e : Entry, t.entries[(k.hash % cap + j) % cap]? = some e ∧
        trulyEmpty e = false ∧ keyMatches k e = false := by
    intro j hj
    have hpj := hinv.probe s es k hs hk j (by
      unfold home
      exact hj)
    unfold home at hpj
    obtain ⟨e2, hget2, hne2⟩ := hpj
    refine ⟨e2, hget2, hne2, ?_⟩
    cases hkey2 : e2.key with
    | none => unfold keyMatches; rw [hkey2]
    | some k2 =>
      unfold keyMatches
      rw [hkey2]
      by_contra hcon
      simp only [Bool.not_eq_false] at hcon
      have hsid : k2.sid = k.sid := of_decide_eq_true hcon
      have hij : (k.hash % cap + j) % cap = s :=
        hinv.uniq _ s e2 es k2 k hget2 hkey2 hs hk hsid
      rw [← hpos] at hij
      have := pos_inj (Nat.lt_trans hj hd) hd hij
      omega
  have hrun := findEntryGo_found (by rw [hpos]; exact hs) hmatch hpath cap 0 none
    (Nat.zero_le _) (by omega)
  unfold findEntry
  rw [← hcap]
  have hstart : (k.hash % cap + 0) % cap = k.hash % cap := by
    rw [Nat.add_zero, Nat.mod_eq_of_lt hh]
  rw [← hstart]
  rw [hrun, hpos]

/-- Under the invariant, `findEntry` for an absent identity returns a
key-free slot: the first tombstone of the probe path, or its first truly
empty slot if the path has no tombstone.  The prefix of the path before the
returned slot is free of truly empty slots. -/
theorem findEntry_absent_inv {t : Table} (hinv : TableINV t) (hc : 0 < t.capacity)
    {key : ObjString}
    (habs : ∀ (i : Nat) (e : Entry) (k2 : ObjString), t.entries[i]? = some e →
      e.key = some k2 → k2.sid ≠ key.sid) :
    ∃ p, p < t.capacity ∧
      findEntry t key = some ((key.hash % t.capacity + p) % t.capacity) ∧
      ∃ er : Entry,
        t.entries[(key.hash % t.capacity + p) % t.capacity]? = some er ∧
        er.key = none ∧
        (∀ j, j < p → ∃ e : Entry,
          t.entries[(key.hash % t.capacity + j) % t.capacity]? = some e ∧
            trulyEmpty e = false) ∧
        (isTombstone er = true ∨
          (trulyEmpty er = true ∧ ∀ j, j < p → ∃ e : Entry,
            t.entries[(key.hash % t.capacity + j) % t.capacity]? = some e ∧
              e.key.isSome = true)) := by
  have hh : key.hash % t.capacity < t.capacity := mod_lt_of_pos _ hc
  obtain ⟨de, hde, ⟨ee, hget, hemp⟩, hpre⟩ := exists_first_empty hinv hc hh
  have hpath : ∀ j, j < de → ∃ e : Entry,
      t.entries[(key.hash % t.capacity + j) % t.capacity]? = some e ∧
        trulyEmpty e = false ∧ keyMatches key e = false := by
    intro j hj
    obtain ⟨e, he, hne⟩ := hpre j hj
    refine ⟨e, he, hne, ?_⟩
    cases hkey2 : e.key with
    | none => unfold keyMatches; rw [hkey2]
    | some k2 =>
      unfold keyMatches
      rw [hkey2]
      simp only [decide_eq_false_iff_not]
      exact habs _ e k2 he hkey2
  have hrun := findEntryGo_absent hget hemp hpath t.capacity 0 none (Nat.zero_le _)
    (by omega) (Or.inl ⟨rfl, fun j2 h => absurd h (Nat.not_lt_zero j2)⟩)
  obtain ⟨p, hp, hres, hspec⟩ := hrun
  have hstart : (key.hash % t.capacity + 0) % t.capacity = key.hash % t.capacity := by
    rw [Nat.add_zero, Nat.mod_eq_of_lt hh]
  refine ⟨p, by omega, ?_, ?_⟩
  · unfold findEntry
    conv_lhs => rw [← hstart]
    exact hres
  · rcases hspec with ⟨et, hgt, htb⟩ | ⟨hpde, hkeys⟩
    · refine ⟨et, hgt, ?_, ?_, Or.inl htb⟩
      · unfold isTombstone at htb
        exact Option.isNone_iff_eq_none.mp (Bool.and_eq_true .. ▸ htb).1
      · intro j hj
        exact hpre j (by omega)
    · subst hpde
      refine ⟨ee, hget, ?_, ?_, Or.inr ⟨hemp, hkeys⟩⟩
      · unfold trulyEmpty at hemp
        exact Option.isNone_iff_eq_none.mp (Bool.and_eq_true .. ▸ hemp).1
      · intro j hj
        exact hpre j hj

/-! ## Preservation of the invariant by the table operations -/

theorem countP_set (p : Entry → Bool) (l : List Entry) (i : Nat) (a b : Entry)
    (hget : l[i]? = some b) :
    (l.set i a).countP p + (cond (p b) 1 0)
      = l.countP p + (cond (p a) 1 0) := by
  induction l generalizing i with
  | nil => simp at hget
  | cons x xs ih =>
    cases i with
    | zero =>
      have hxb : x = b := by simpa using hget
      simp only [List.set_cons_zero, List.countP_cons]
      rw [hxb]
      cases hpa : p a <;> cases hpb : p b <;> simp [hpa, hpb]
    | succ n =>
      simp only [List.getElem?_cons_succ] at hget
      have := ih n hget
      simp only [List.set_cons_succ, List.countP_cons]
      omega

/-- Replacing a slot by an entry with the same `p`-status keeps the count. -/
theorem countP_set_same (p : Entry → Bool) {l : List Entry} {i : Nat} {a b : Entry}
    (hget : l[i]? = some b) (hab : p a = p b) :
    (l.set i a).countP p = l.countP p := by
  have h := countP_set p l i a b hget
  rw [hab] at h
  omega

/-- Replacing a `p`-false slot by a `p`-true entry bumps the count. -/
theorem countP_set_incr (p : Entry → Bool) {l : List Entry} {i : Nat} {a b : Entry}
    (hget : l[i]? = some b) (hb : p b = false) (ha : p a = true) :
    (l.set i a).countP p = l.countP p + 1 := by
  have h := countP_set p l i a b hget
  simp only [hb, ha, cond_false, cond_true] at h
  omega

/-- A slot holding a key contributes to `count`. -/
theorem count_pos_of_key {t : Table} (hinv : TableINV t) {s : Nat} {es : Entry}
    {k : ObjString} (hs : t.entries[s]? = some es) (hk : es.key = some k) :
    0 < t.count := by
  rw [hinv.count_eq]
  apply List.countP_pos_iff.mpr
  refine ⟨es, ?_, ?_⟩
  · obtain ⟨hlt, hval⟩ := List.getElem?_eq_some.mp hs
    exact hval ▸ List.getElem_mem hlt
  · unfold trulyEmpty
    rw [hk]
    rfl

/-- `tableDelete` on a stored key: returns `true`, tombstones exactly the
key's slot, preserves `count` and the invariant, and leaves the identity
absent. -/
theorem tableDelete_present {t : Table} (hinv : TableINV t) {s : Nat} {es : Entry}
    {k : ObjString} (hs : t.entries[s]? = some es) (hk : es.key = some k) :
    tableDelete t k
      = (true, ⟨t.count, t.capacity, t.entries.set s ⟨none, .vBool true⟩⟩) ∧
    TableINV ⟨t.count, t.capacity, t.entries.set s ⟨none, .vBool true⟩⟩ ∧
    (∀ (i : Nat) (e : Entry) (k2 : ObjString),
      (t.entries.set s ⟨none, .vBool true⟩)[i]? = some e → e.key = some k2 →
        k2.sid ≠ k.sid) := by
  have hslt : s < t.capacity := slot_lt hinv hs
  have hsl : s < t.entries.length := by rw [hinv.len]; exact hslt
  have hfind : findEntry t k = some s := findEntry_found_inv hinv hs hk
  have hcount : 0 < t.count := count_pos_of_key hinv hs hk
  have hkn : es.key.isNone = false := by rw [hk]; rfl
  have hrun : tableDelete t k
      = (true, ⟨t.count, t.capacity, t.entries.set s ⟨none, .vBool true⟩⟩) := by
    unfold tableDelete
    rw [if_neg (by omega), hfind]
    simp only [hs, hkn, Bool.false_eq_true, if_false]
  have hother : ∀ (i : Nat), i ≠ s →
      (t.entries.set s ⟨none, .vBool true⟩)[i]? = t.entries[i]? := by
    intro i hi
    exact List.getElem?_set_ne (fun h => hi h.symm)
  have hat : (t.entries.set s ⟨none, .vBool true⟩)[s]? = some ⟨none, .vBool true⟩ :=
    List.getElem?_set_eq_of_lt _ hsl
  have habs : ∀ (i : Nat) (e : Entry) (k2 : ObjString),
      (t.entries.set s ⟨none, .vBool true⟩)[i]? = some e → e.key = some k2 →
        k2.sid ≠ k.sid := by
    intro i e k2 hget hkey2 hsid
    by_cases his : i = s
    · subst his
      rw [hat] at hget
      cases hget
      cases hkey2
    · rw [hother i his] at hget
      have := hinv.uniq i s e es k2 k hget hkey2 hs hk hsid
      exact his this
  refine ⟨hrun, ?_, habs⟩
  constructor
  · rw [List.length_set]; exact hinv.len
  · show t.count = (t.entries.set s ⟨none, .vBool true⟩).countP (fun e => !trulyEmpty e)
    have hcp := countP_set_same (fun e => !trulyEmpty e) hs
      (a := ⟨none, .vBool true⟩) (b := es) ?_
    · rw [hcp]
      exact hinv.count_eq
    · show (!trulyEmpty ⟨none, .vBool true⟩) = (!trulyEmpty es)
      have h1 : trulyEmpty es = false := by unfold trulyEmpty; rw [hk]; rfl
      rw [h1]
      rfl
  · exact hinv.load
  · intro i j ei ej ki kj hgi hki hgj hkj hsid
    by_cases his : i = s
    · subst his
      rw [hat] at hgi
      cases hgi
      cases hki
    · by_cases hjs : j = s
      · subst hjs
        rw [hat] at hgj
        cases hgj
        cases hkj
      · rw [hother i his] at hgi
        rw [hother j hjs] at hgj
        exact hinv.uniq i j ei ej ki kj hgi hki hgj hkj hsid
  · intro i e k2 hgi hki j hj
    by_cases his : i = s
    · subst his
      rw [hat] at hgi
      cases hgi
      cases hki
    · rw [hother i his] at hgi
      obtain ⟨e2, hg2, hne2⟩ := hinv.probe i e k2 hgi hki j hj
      by_cases hps : (home t.capacity k2 + j) % t.capacity = s
      · refine ⟨⟨none, .vBool true⟩, ?_, rfl⟩
        rw [hps]
        exact hat
      · refine ⟨e2, ?_, hne2⟩
        rw [hother _ hps]
        exact hg2

theorem dist_back {cap h p : Nat} (hh : h < cap) (hp : p < cap) :
    dist cap h ((h + p) % cap) = p := by
  have hc : 0 < cap := Nat.lt_of_le_of_lt (Nat.zero_le _) hp
  have hr : (h + p) % cap < cap := mod_lt_of_pos _ hc
  have h1 : (h + dist cap h ((h + p) % cap)) % cap = (h + p) % cap := pos_dist hh hr
  exact pos_inj (dist_lt hc) hp h1

/-- Core of an insertion with absent identity: `findEntry` lands on a
key-free slot (first tombstone of the path, else its first truly empty slot)
and writing the key there preserves the invariant.  The conditional count is
exactly the `count` update of `tableSet`. -/
theorem insert_core {t : Table} (hinv : TableINV t) (hc : 0 < t.capacity)
    {key : ObjString}
    (habs : ∀ (i : Nat) (e : Entry) (k2 : ObjString), t.entries[i]? = some e →
      e.key = some k2 → k2.sid ≠ key.sid)
    (hload1 : 4 * (t.count + 1) ≤ 3 * t.capacity) (v : Value) :
    ∃ (p : Nat) (er : Entry),
      p < t.capacity ∧
      findEntry t key = some ((key.hash % t.capacity + p) % t.capacity) ∧
      t.entries[(key.hash % t.capacity + p) % t.capacity]? = some er ∧
      er.key = none ∧
      (isTombstone er = true ∨
        (trulyEmpty er = true ∧ ∀ j, j < p → ∃ e : Entry,
          t.entries[(key.hash % t.capacity + j) % t.capacity]? = some e ∧
            e.key.isSome = true)) ∧
      TableINV ⟨(if trulyEmpty er = true then t.count + 1 else t.count),
        t.capacity,
        t.entries.set ((key.hash % t.capacity + p) % t.capacity) ⟨some key, v⟩⟩ := by
  obtain ⟨p, hp, hfind, er, hget, hkn, hpre, hdisj⟩ := findEntry_absent_inv hinv hc habs
  have hh : key.hash % t.capacity < t.capacity := mod_lt_of_pos _ hc
  set r := (key.hash % t.capacity + p) % t.capacity with hrdef
  have hrlt : r < t.capacity := mod_lt_of_pos _ hc
  have hrl : r < t.entries.length := by rw [hinv.len]; exact hrlt
  have hdr : dist t.capacity (key.hash % t.capacity) r = p := dist_back hh hp
  have hat : (t.entries.set r ⟨some key, v⟩)[r]? = some ⟨some key, v⟩ :=
    List.getElem?_set_eq_of_lt _ hrl
  have hother : ∀ (i : Nat), i ≠ r →
      (t.entries.set r ⟨some key, v⟩)[i]? = t.entries[i]? := by
    intro i hi
    exact List.getElem?_set_ne (fun h => hi h.symm)
  refine ⟨p, er, hp, hfind, hget, hkn, hdisj, ?_⟩
  constructor
  · rw [List.length_set]; exact hinv.len
  · show _ = (t.entries.set r ⟨some key, v⟩).countP (fun e => !trulyEmpty e)
    by_cases hte : trulyEmpty er = true
    · rw [if_pos hte]
      have := countP_set_incr (fun e => !trulyEmpty e) hget
        (a := ⟨some key, v⟩) (by simp [hte]) (by rfl)
      rw [this, ← hinv.count_eq]
    · rw [if_neg hte]
      have h1 : trulyEmpty er = false := by
        revert hte; cases trulyEmpty er <;> simp
      have := countP_set_same (fun e => !trulyEmpty e) hget
        (a := ⟨some key, v⟩) (by
          show (!trulyEmpty (⟨some key, v⟩ : Entry)) = (!trulyEmpty er)
          rw [h1]
          rfl)
      rw [this, ← hinv.count_eq]
  · show 4 * (if trulyEmpty er = true then t.count + 1 else t.count) ≤ 3 * t.capacity
    have := hinv.load
    by_cases hte : trulyEmpty er = true
    · rw [if_pos hte]; omega
    · rw [if_neg hte]; omega
  · intro i j ei ej ki kj hgi hki hgj hkj hsid
    by_cases his : i = r
    · by_cases hjs : j = r
      · rw [his, hjs]
      · exfalso
        subst his
        rw [hat] at hgi
        cases hgi
        cases hki
        rw [hother j hjs] at hgj
        exact habs j ej kj hgj hkj hsid.symm
    · by_cases hjs : j = r
      · exfalso
        subst hjs
        rw [hat] at hgj
        cases hgj
        cases hkj
        rw [hother i his] at hgi
        exact habs i ei ki hgi hki hsid
      · rw [hother i his] at hgi
        rw [hother j hjs] at hgj
        exact hinv.uniq i j ei ej ki kj hgi hki hgj hkj hsid
  · intro i e k2 hgi hki j hj
    by_cases his : i = r
    · subst his
      rw [hat] at hgi
      cases hgi
      cases hki
      -- the new key: its path prefix was non-empty before the write
      unfold home at hj ⊢
      rw [hdr] at hj
      obtain ⟨e2, hg2, hne2⟩ := hpre j hj
      by_cases hps : (key.hash % t.capacity + j) % t.capacity = r
      · refine ⟨⟨some key, v⟩, ?_, rfl⟩
        rw [hps]
        exact hat
      · refine ⟨e2, ?_, hne2⟩
        rw [hother _ hps]
        exact hg2
    · rw [hother i his] at hgi
      obtain ⟨e2, hg2, hne2⟩ := hinv.probe i e k2 hgi hki j hj
      by_cases hps : (home t.capacity k2 + j) % t.capacity = r
      · refine ⟨⟨some key, v⟩, ?_, rfl⟩
        rw [hps]
        exact hat
      · refine ⟨e2, ?_, hne2⟩
        rw [hother _ hps]
        exact hg2

/-- `tableGet` on a stored key yields the stored value. -/
theorem tableGet_present {t : Table} (hinv : TableINV t) {s : Nat} {es : Entry}
    {k : ObjString} (hs : t.entries[s]? = some es) (hk : es.key = some k) :
    tableGet t k = some es.value := by
  have hfind := findEntry_found_inv hinv hs hk
  have hcount := count_pos_of_key hinv hs hk
  have hkn : es.key.isNone = false := by rw [hk]; rfl
  unfold tableGet
  rw [if_neg (by omega)]
  simp only [hfind, hs, hkn, Bool.false_eq_true, if_false]

/-- `tableGet` on an absent identity yields `none`. -/
theorem tableGet_absent {t : Table} (hinv : TableINV t) {key : ObjString}
    (habs : ∀ (i : Nat) (e : Entry) (k2 : ObjString), t.entries[i]? = some e →
      e.key = some k2 → k2.sid ≠ key.sid) :
    tableGet t key = none := by
  by_cases hc0 : t.count = 0
  · unfold tableGet
    rw [if_pos hc0]
  · have hc : 0 < t.capacity := by
      by_contra h
      obtain ⟨h1, _⟩ := inv_cap_zero hinv (by omega)
      exact hc0 h1
    obtain ⟨p, hp, hfind, er, hget, hkn, _, _⟩ := findEntry_absent_inv hinv hc habs
    have hkn2 : er.key.isNone = true := by rw [hkn]; rfl
    unfold tableGet
    rw [if_neg hc0]
    simp only [hfind, hget, hkn2, if_true]

/-! ## `adjustCapacity` rebuilds an invariant table -/

/-- Invariant of the copy loop of `adjustCapacity`: after processing the
prefix `pfx` of the old entry array, the accumulator is an invariant,
tombstone-free table holding exactly the live bindings of `pfx`, and its
count is the number of live slots copied. -/
def AccInv (cap : Nat) (pfx : List Entry) (acc : Nat × List Entry) : Prop :=
  TableINV ⟨acc.1, cap, acc.2⟩ ∧
  (∀ (i : Nat) (e : Entry), acc.2[i]? = some e → e.key.isNone = true →
    trulyEmpty e = true) ∧
  (∀ (i : Nat) (e : Entry) (k2 : ObjString), acc.2[i]? = some e →
    e.key = some k2 → (Entry.mk (some k2) e.value) ∈ pfx) ∧
  (∀ (src : Entry) (k2 : ObjString), src ∈ pfx → src.key = some k2 →
    ∃ i : Nat, acc.2[i]? = some ⟨some k2, src.value⟩) ∧
  acc.1 = pfx.countP (fun e => e.key.isSome)

theorem accInv_init (cap : Nat) :
    AccInv cap [] (0, List.replicate cap ⟨none, .vNil⟩) := by
  have hget : ∀ (i : Nat) (e : Entry),
      (List.replicate cap (⟨none, .vNil⟩ : Entry))[i]? = some e →
        e = ⟨none, .vNil⟩ := by
    intro i e h
    rcases Nat.lt_or_ge i cap with hi | hi
    · rw [List.getElem?_replicate, if_pos hi] at h
      cases h
      rfl
    · rw [List.getElem?_replicate, if_neg (by omega)] at h
      cases h
  refine ⟨⟨List.length_replicate .., ?_, by show 4 * 0 ≤ 3 * cap; omega, ?_, ?_⟩,
    ?_, ?_, ?_, rfl⟩
  · show (0 : Nat) = _
    symm
    apply List.countP_eq_zero.mpr
    intro e he
    have : e = ⟨none, .vNil⟩ := by
      obtain ⟨i, hi, hv⟩ := List.mem_iff_getElem.mp he
      exact hget i e (by rw [List.getElem?_eq_getElem hi, hv])
    rw [this]
    decide
  · intro i j ei ej ki kj hgi hki hgj hkj hsid
    have := hget i ei hgi
    subst this
    cases hki
  · intro i e k2 hgi hki j hj
    have := hget i e hgi
    subst this
    cases hki
  · intro i e h hn
    rw [hget i e h]
    rfl
  · intro i e k2 h hk
    rw [hget i e h] at hk
    cases hk
  · intro src k2 hsrc
    cases hsrc

/-- One step of the copy loop preserves the loop invariant. -/
theorem accInv_step {cap : Nat} (hc : 0 < cap) {full pfx rest : List Entry}
    {e : Entry} {acc : Nat × List Entry}
    (hsplit : full = pfx ++ e :: rest)
    (huniq : ∀ (i j : Nat) (ei ej : Entry) (ki kj : ObjString),
      full[i]? = some ei → ei.key = some ki → full[j]? = some ej →
      ej.key = some kj → ki.sid = kj.sid → i = j)
    (hbound : 4 * (full.countP (fun e => e.key.isSome) + 1) ≤ 3 * cap)
    (hacc : AccInv cap pfx acc) :
    AccInv cap (pfx ++ [e]) (adjustStep cap acc e) := by
  obtain ⟨hinv, hnt, hf1, hf2, hg⟩ := hacc
  cases hkey : e.key with
  | none =>
    unfold adjustStep
    rw [hkey]
    show AccInv cap (pfx ++ [e]) acc
    refine ⟨hinv, hnt, ?_, ?_, ?_⟩
    · intro i e2 k2 hgi hki
      exact List.mem_append_left _ (hf1 i e2 k2 hgi hki)
    · intro src k2 hsrc hk2
      rcases List.mem_append.mp hsrc with hin | hin
      · exact hf2 src k2 hin hk2
      · exfalso
        have : src = e := List.mem_singleton.mp hin
        subst this
        rw [hkey] at hk2
        cases hk2
    · rw [List.countP_append, hg]
      have : e.key.isSome = false := by rw [hkey]; rfl
      simp [this]
  | some k =>
    -- the copied key is absent from the accumulator
    have habs : ∀ (i : Nat) (e2 : Entry) (k2 : ObjString), acc.2[i]? = some e2 →
        e2.key = some k2 → k2.sid ≠ k.sid := by
      intro i e2 k2 hgi hki hsid
      have hmem := hf1 i e2 k2 hgi hki
      obtain ⟨idx, hidx, hval⟩ := List.mem_iff_getElem.mp hmem
      have hfull_idx : full[idx]? = some ⟨some k2, e2.value⟩ := by
        rw [hsplit, List.getElem?_append, if_pos hidx,
          List.getElem?_eq_getElem hidx, hval]
      have hfull_e : full[pfx.length]? = some e := by
        rw [hsplit, List.getElem?_append, if_neg (by omega)]
        simp
      have := huniq idx pfx.length ⟨some k2, e2.value⟩ e k2 k hfull_idx rfl
        hfull_e hkey hsid
      omega
    have hlive_split : pfx.countP (fun e => e.key.isSome) + 1
        ≤ full.countP (fun e => e.key.isSome) := by
      rw [hsplit, List.countP_append, List.countP_cons]
      have : e.key.isSome = true := by rw [hkey]; rfl
      simp [this]
    have hload1 : 4 * (acc.1 + 1) ≤ 3 * cap := by
      rw [hg]
      omega
    obtain ⟨p, er, hp, hfind, hget, hkn, hdisj, hinv2⟩ :=
      insert_core hinv hc habs hload1 e.value
    set r := (k.hash % cap + p) % cap with hrdef
    have hrlt : r < cap := mod_lt_of_pos _ hc
    have hrl : r < acc.2.length := by rw [hinv.len]; exact hrlt
    have hte : trulyEmpty er = true := hnt r er hget (by rw [hkn]; rfl)
    have hfind2 : findEntryGo acc.2 cap k cap (k.hash % cap) none = some r := hfind
    have hstep : adjustStep cap acc e = (acc.1 + 1, acc.2.set r ⟨some k, e.value⟩) := by
      simp only [adjustStep, hkey, hfind2]
    rw [hstep]
    have hat : (acc.2.set r ⟨some k, e.value⟩)[r]? = some ⟨some k, e.value⟩ :=
      List.getElem?_set_eq_of_lt _ hrl
    have hother : ∀ (i : Nat), i ≠ r →
        (acc.2.set r ⟨some k, e.value⟩)[i]? = acc.2[i]? := by
      intro i hi
      exact List.getElem?_set_ne (fun h => hi h.symm)
    have hinv3 : TableINV ⟨acc.1 + 1, cap, acc.2.set r ⟨some k, e.value⟩⟩ := by
      have := hinv2
      rw [if_pos hte] at this
      exact this
    refine ⟨hinv3, ?_, ?_, ?_, ?_⟩
    · intro i e2 hgi hki
      by_cases his : i = r
      · subst his
        rw [hat] at hgi
        cases hgi
        cases hki
      · rw [hother i his] at hgi
        exact hnt i e2 hgi hki
    · intro i e2 k2 hgi hki
      by_cases his : i = r
      · subst his
        rw [hat] at hgi
        cases hgi
        cases hki
        apply List.mem_append_right
        have he : e = ⟨some k, e.value⟩ := by
          cases e
          simp at hkey
          rw [hkey]
        rw [← he]
        exact List.mem_singleton.mpr rfl
      · rw [hother i his] at hgi
        exact List.mem_append_left _ (hf1 i e2 k2 hgi hki)
    · intro src k2 hsrc hk2
      rcases List.mem_append.mp hsrc with hin | hin
      · obtain ⟨i, hi⟩ := hf2 src k2 hin hk2
        have hir : i ≠ r := by
          intro h
          subst h
          rw [hi] at hget
          cases hget
          cases hkn
        refine ⟨i, ?_⟩
        rw [hother i hir]
        exact hi
      · have : src = e := List.mem_singleton.mp hin
        subst this
        rw [hkey] at hk2
        cases hk2
        exact ⟨r, hat⟩
    · rw [List.countP_append, hg]
      have : e.key.isSome = true := by rw [hkey]; rfl
      simp [this]

/-- The copy loop of `adjustCapacity`, run over any suffix. -/
theorem accInv_fold {cap : Nat} (hc : 0 < cap) {full : List Entry}
    (huniq : ∀ (i j : Nat) (ei ej : Entry) (ki kj : ObjString),
      full[i]? = some ei → ei.key = some ki → full[j]? = some ej →
      ej.key = some kj → ki.sid = kj.sid → i = j)
    (hbound : 4 * (full.countP (fun e => e.key.isSome) + 1) ≤ 3 * cap) :
    ∀ (rest pfx : List Entry) (acc : Nat × List Entry),
      full = pfx ++ rest → AccInv cap pfx acc →
      AccInv cap (pfx ++ rest) (rest.foldl (adjustStep cap) acc) := by
  intro rest
  induction rest with
  | nil =>
    intro pfx acc hsplit hacc
    simpa using hacc
  | cons e rest ih =>
    intro pfx acc hsplit hacc
    have hstep := accInv_step hc hsplit huniq hbound hacc
    have hsplit2 : full = (pfx ++ [e]) ++ rest := by
      rw [hsplit, List.append_assoc]
      rfl
    have := ih (pfx ++ [e]) (adjustStep cap acc e) hsplit2 hstep
    rw [List.append_assoc] at this
    simpa using this

/-- `adjustCapacity` produces an invariant table of the requested capacity
holding exactly the live bindings of the old table, with fresh headroom. -/
theorem adjustCapacity_inv {t : Table} (hinv : TableINV t) {cap : Nat}
    (hc : 0 < cap) (hb : 4 * (t.count + 1) ≤ 3 * cap) :
    TableINV (adjustCapacity t cap) ∧
    (adjustCapacity t cap).capacity = cap ∧
    4 * ((adjustCapacity t cap).count + 1) ≤ 3 * cap ∧
    (∀ (i : Nat) (e : Entry) (k2 : ObjString),
      (adjustCapacity t cap).entries[i]? = some e → e.key = some k2 →
        ∃ j : Nat, t.entries[j]? = some ⟨some k2, e.value⟩) ∧
    (∀ (j : Nat) (e : Entry) (k2 : ObjString), t.entries[j]? = some e →
      e.key = some k2 →
        ∃ i : Nat, (adjustCapacity t cap).entries[i]? = some ⟨some k2, e.value⟩) := by
  have hlive : t.entries.countP (fun e => e.key.isSome) ≤ t.count := by
    rw [hinv.count_eq]
    apply List.countP_mono_left
    intro e he hkey
    unfold trulyEmpty
    cases hk : e.key with
    | none => rw [hk] at hkey; cases hkey
    | some k0 => rfl
  have hbound : 4 * (t.entries.countP (fun e => e.key.isSome) + 1) ≤ 3 * cap := by
    omega
  have hfold := accInv_fold hc hinv.uniq hbound t.entries []
    (0, List.replicate cap ⟨none, .vNil⟩) rfl (accInv_init cap)
  rw [List.nil_append] at hfold
  obtain ⟨hinv2, hnt, hf1, hf2, hg⟩ := hfold
  refine ⟨hinv2, rfl, ?_, ?_, ?_⟩
  · show 4 * ((t.entries.foldl (adjustStep cap)
      (0, List.replicate cap ⟨none, .vNil⟩)).1 + 1) ≤ 3 * cap
    omega
  · intro i e k2 hgi hki
    have hmem := hf1 i e k2 hgi hki
    obtain ⟨j, hj, hv⟩ := List.mem_iff_getElem.mp hmem
    exact ⟨j, by rw [List.getElem?_eq_getElem hj, hv]⟩
  · intro j e k2 hgj hkj
    have hmem : e ∈ t.entries := by
      obtain ⟨hlt, hval⟩ := List.getElem?_eq_some.mp hgj
      exact hval ▸ List.getElem_mem hlt
    exact hf2 e k2 hmem hkj

/-- A successful `tableSet` insertion, phrased relative to the post-growth
table `t1`: the probe lands on a key-free slot and `tableSet` returns `true`
together with the written, invariant table. -/
theorem tableSet_step {t t1 : Table} {key : ObjString} (v : Value)
    (hpost : (if 4 * (t.count + 1) > 3 * t.capacity
      then adjustCapacity t (growCapacity t.capacity) else t) = t1)
    (hinv1 : TableINV t1) (hc1 : 0 < t1.capacity)
    (habs1 : ∀ (i : Nat) (e : Entry) (k2 : ObjString), t1.entries[i]? = some e →
      e.key = some k2 → k2.sid ≠ key.sid)
    (hload1 : 4 * (t1.count + 1) ≤ 3 * t1.capacity) :
    ∃ (p : Nat) (er : Entry),
      p < t1.capacity ∧
      t1.entries[(key.hash % t1.capacity + p) % t1.capacity]? = some er ∧
      er.key = none ∧
      (isTombstone er = true ∨
        (trulyEmpty er = true ∧ ∀ j, j < p → ∃ e : Entry,
          t1.entries[(key.hash % t1.capacity + j) % t1.capacity]? = some e ∧
            e.key.isSome = true)) ∧
      TableINV ⟨(if trulyEmpty er = true then t1.count + 1 else t1.count),
        t1.capacity,
        t1.entries.set ((key.hash % t1.capacity + p) % t1.capacity)
          ⟨some key, v⟩⟩ ∧
      tableSet t key v = (true,
        ⟨(if trulyEmpty er = true then t1.count + 1 else t1.count),
          t1.capacity,
          t1.entries.set ((key.hash % t1.capacity + p) % t1.capacity)
            ⟨some key, v⟩⟩) := by
  obtain ⟨p, er, hp, hfind, hget, hkn, hdisj, hinv2⟩ :=
    insert_core hinv1 hc1 habs1 hload1 v
  have hknb : er.key.isNone = true := by rw [hkn]; rfl
  have hteq : trulyEmpty er = isNil er.value := by
    unfold trulyEmpty
    rw [hknb]
    rfl
  refine ⟨p, er, hp, hget, hkn, hdisj, hinv2, ?_⟩
  unfold tableSet
  rw [hpost]
  simp only [hfind, hget, hknb, Bool.true_and]
  rw [hteq]

/-- `tableSet` with an absent identity returns `true` and an invariant table
holding the new binding. -/
theorem tableSet_absent {t : Table} (hinv : TableINV t) {key : ObjString}
    (habs : ∀ (i : Nat) (e : Entry) (k2 : ObjString), t.entries[i]? = some e →
      e.key = some k2 → k2.sid ≠ key.sid) (v : Value) :
    ∃ t2 : Table, tableSet t key v = (true, t2) ∧ TableINV t2 ∧
      0 < t2.capacity ∧ (∃ r : Nat, t2.entries[r]? = some ⟨some key, v⟩) := by
  by_cases hg : 4 * (t.count + 1) > 3 * t.capacity
  · -- growth path
    have hc1 : 0 < growCapacity t.capacity := by
      unfold growCapacity
      split <;> omega
    have hb : 4 * (t.count + 1) ≤ 3 * growCapacity t.capacity := by
      have := hinv.load
      unfold growCapacity
      split <;> omega
    obtain ⟨hinv1, hcap1, hload1, hiva, _⟩ := adjustCapacity_inv hinv hc1 hb
    set t1 := adjustCapacity t (growCapacity t.capacity) with ht1
    have hc1b : 0 < t1.capacity := by rw [hcap1]; exact hc1
    have habs1 : ∀ (i : Nat) (e : Entry) (k2 : ObjString),
        t1.entries[i]? = some e → e.key = some k2 → k2.sid ≠ key.sid := by
      intro i e k2 hgi hki
      obtain ⟨j, hj⟩ := hiva i e k2 hgi hki
      exact habs j ⟨some k2, e.value⟩ k2 hj rfl
    obtain ⟨p, er, hp, hget, hkn, hdisj, hinv2, hrun⟩ :=
      tableSet_step v (if_pos hg) hinv1 hc1b habs1 (by rw [hcap1]; exact hload1)
    refine ⟨_, hrun, hinv2, hc1b, ?_⟩
    refine ⟨(key.hash % t1.capacity + p) % t1.capacity, ?_⟩
    show (t1.entries.set ((key.hash % t1.capacity + p) % t1.capacity)
      ⟨some key, v⟩)[(key.hash % t1.capacity + p) % t1.capacity]? = _
    apply List.getElem?_set_eq_of_lt
    rw [hinv1.len]
    exact mod_lt_of_pos _ hc1b
  · -- no growth: the load test guarantees a positive capacity
    have hc : 0 < t.capacity := by omega
    obtain ⟨p, er, hp, hget, hkn, hdisj, hinv2, hrun⟩ :=
      tableSet_step v (if_neg hg) hinv hc habs (by omega)
    refine ⟨_, hrun, hinv2, hc, ?_⟩
    refine ⟨(key.hash % t.capacity + p) % t.capacity, ?_⟩
    show (t.entries.set ((key.hash % t.capacity + p) % t.capacity)
      ⟨some key, v⟩)[(key.hash % t.capacity + p) % t.capacity]? = _
    apply List.getElem?_set_eq_of_lt
    rw [hinv.len]
    exact mod_lt_of_pos _ hc

/-! ## Preservation for arbitrary operations, reachability, termination -/

/-- Tombstoning any keyed slot preserves the invariant. -/
theorem set_tombstone_inv {t : Table} (hinv : TableINV t) {s : Nat} {es : Entry}
    {k : ObjString} (hs : t.entries[s]? = some es) (hk : es.key = some k) :
    TableINV ⟨t.count, t.capacity, t.entries.set s ⟨none, .vBool true⟩⟩ := by
  have hslt : s < t.capacity := slot_lt hinv hs
  have hsl : s < t.entries.length := by rw [hinv.len]; exact hslt
  have hat : (t.entries.set s ⟨none, .vBool true⟩)[s]? = some ⟨none, .vBool true⟩ :=
    List.getElem?_set_eq_of_lt _ hsl
  have hother : ∀ (i : Nat), i ≠ s →
      (t.entries.set s ⟨none, .vBool true⟩)[i]? = t.entries[i]? := by
    intro i hi
    exact List.getElem?_set_ne (fun h => hi h.symm)
  constructor
  · rw [List.length_set]; exact hinv.len
  · show t.count = (t.entries.set s ⟨none, .vBool true⟩).countP (fun e => !trulyEmpty e)
    have hcp := countP_set_same (fun e => !trulyEmpty e) hs
      (a := ⟨none, .vBool true⟩) (by
        show (!trulyEmpty (⟨none, .vBool true⟩ : Entry)) = (!trulyEmpty es)
        have h1 : trulyEmpty es = false := by unfold trulyEmpty; rw [hk]; rfl
        rw [h1]
        rfl)
    rw [hcp]
    exact hinv.count_eq
  · exact hinv.load
  · intro i j ei ej ki kj hgi hki hgj hkj hsid
    by_cases his : i = s
    · subst his
      rw [hat] at hgi
      cases hgi
      cases hki
    · by_cases hjs : j = s
      · subst hjs
        rw [hat] at hgj
        cases hgj
        cases hkj
      · rw [hother i his] at hgi
        rw [hother j hjs] at hgj
        exact hinv.uniq i j ei ej ki kj hgi hki hgj hkj hsid
  · intro i e k2 hgi hki j hj
    by_cases his : i = s
    · subst his
      rw [hat] at hgi
      cases hgi
      cases hki
    · rw [hother i his] at hgi
      obtain ⟨e2, hg2, hne2⟩ := hinv.probe i e k2 hgi hki j hj
      by_cases hps : (home t.capacity k2 + j) % t.capacity = s
      · refine ⟨⟨none, .vBool true⟩, ?_, rfl⟩
        rw [hps]
        exact hat
      · refine ⟨e2, ?_, hne2⟩
        rw [hother _ hps]
        exact hg2

/-- Overwriting a slot that already holds the key (same record) preserves the
invariant. -/
theorem overwrite_key_inv {t : Table} (hinv : TableINV t) {s : Nat} {es : Entry}
    {key : ObjString} (hs : t.entries[s]? = some es) (hk : es.key = some key)
    (v : Value) :
    TableINV ⟨t.count, t.capacity, t.entries.set s ⟨some key, v⟩⟩ := by
  have hslt : s < t.capacity := slot_lt hinv hs
  have hsl : s < t.entries.length := by rw [hinv.len]; exact hslt
  have hat : (t.entries.set s ⟨some key, v⟩)[s]? = some ⟨some key, v⟩ :=
    List.getElem?_set_eq_of_lt _ hsl
  have hother : ∀ (i : Nat), i ≠ s →
      (t.entries.set s ⟨some key, v⟩)[i]? = t.entries[i]? := by
    intro i hi
    exact List.getElem?_set_ne (fun h => hi h.symm)
  constructor
  · rw [List.length_set]; exact hinv.len
  · show t.count = (t.entries.set s ⟨some key, v⟩).countP (fun e => !trulyEmpty e)
    have hcp := countP_set_same (fun e => !trulyEmpty e) hs
      (a := ⟨some key, v⟩) (by
        show (!trulyEmpty (⟨some key, v⟩ : Entry)) = (!trulyEmpty es)
        have h1 : trulyEmpty es = false := by unfold trulyEmpty; rw [hk]; rfl
        rw [h1]
        rfl)
    rw [hcp]
    exact hinv.count_eq
  · exact hinv.load
  · intro i j ei ej ki kj hgi hki hgj hkj hsid
    by_cases his : i = s
    · by_cases hjs : j = s
      · rw [his, hjs]
      · rw [his] at hgi
        rw [hat] at hgi
        cases hgi
        cases hki
        rw [hother j hjs] at hgj
        rw [his]
        exact hinv.uniq s j es ej key kj hs hk hgj hkj hsid
    · by_cases hjs : j = s
      · rw [hjs] at hgj
        rw [hat] at hgj
        cases hgj
        cases hkj
        rw [hother i his] at hgi
        rw [hjs]
        exact hinv.uniq i s ei es ki key hgi hki hs hk hsid
      · rw [hother i his] at hgi
        rw [hother j hjs] at hgj
        exact hinv.uniq i j ei ej ki kj hgi hki hgj hkj hsid
  · intro i e k2 hgi hki j hj
    by_cases his : i = s
    · rw [his] at hgi hj
      rw [hat] at hgi
      cases hgi
      cases hki
      -- same key, same home: reuse the old probe path for slot s
      obtain ⟨e2, hg2, hne2⟩ := hinv.probe s es key hs hk j hj
      by_cases hps : (home t.capacity key + j) % t.capacity = s
      · refine ⟨⟨some key, v⟩, ?_, rfl⟩
        rw [hps]
        exact hat
      · refine ⟨e2, ?_, hne2⟩
        rw [hother _ hps]
        exact hg2
    · rw [hother i his] at hgi
      obtain ⟨e2, hg2, hne2⟩ := hinv.probe i e k2 hgi hki j hj
      by_cases hps : (home t.capacity k2 + j) % t.capacity = s
      · refine ⟨⟨some key, v⟩, ?_, rfl⟩
        rw [hps]
        exact hat
      · refine ⟨e2, ?_, hne2⟩
        rw [hother _ hps]
        exact hg2

/-- `tableDelete` preserves the invariant for any queried key. -/
theorem tableDelete_inv {t : Table} (hinv : TableINV t) (key : ObjString) :
    TableINV (tableDelete t key).2 := by
  by_cases hc0 : t.count = 0
  · have hrun : tableDelete t key = (false, t) := by
      unfold tableDelete
      rw [if_pos hc0]
    rw [hrun]
    exact hinv
  · cases hfind : findEntry t key with
    | none =>
      have hrun : tableDelete t key = (false, t) := by
        unfold tableDelete
        rw [if_neg hc0, hfind]
      rw [hrun]
      exact hinv
    | some i =>
      cases hget : t.entries[i]? with
      | none =>
        have hrun : tableDelete t key = (false, t) := by
          unfold tableDelete
          rw [if_neg hc0, hfind]
          simp only [hget]
        rw [hrun]
        exact hinv
      | some e =>
        cases hkey : e.key with
        | none =>
          have h1 : e.key.isNone = true := by rw [hkey]; rfl
          have hrun : tableDelete t key = (false, t) := by
            unfold tableDelete
            rw [if_neg hc0, hfind]
            simp only [hget, h1, if_true]
          rw [hrun]
          exact hinv
        | some k0 =>
          have h1 : e.key.isNone = false := by rw [hkey]; rfl
          have hrun : tableDelete t key = (true,
              ⟨t.count, t.capacity, t.entries.set i ⟨none, .vBool true⟩⟩) := by
            unfold tableDelete
            rw [if_neg hc0, hfind]
            simp only [hget, h1, Bool.false_eq_true, if_false]
          rw [hrun]
          exact set_tombstone_inv hinv hget hkey

/-- The sid of any stored key is either absent or stored as some record. -/
theorem sid_cases (t : Table) (key : ObjString) :
    (∀ (i : Nat) (e : Entry) (k2 : ObjString), t.entries[i]? = some e →
      e.key = some k2 → k2.sid ≠ key.sid) ∨
    (∃ (s : Nat) (es : Entry) (k0 : ObjString), t.entries[s]? = some es ∧
      es.key = some k0 ∧ k0.sid = key.sid) := by
  classical
  by_cases h : ∃ (s : Nat) (es : Entry) (k0 : ObjString), t.entries[s]? = some es ∧
      es.key = some k0 ∧ k0.sid = key.sid
  · exact Or.inr h
  · left
    intro i e k2 hgi hki hsid
    exact h ⟨i, e, k2, hgi, hki, hsid⟩

/-- `tableSet` preserves the invariant, provided the queried key record is
consistent with the table (same identity implies same record — the C pointer
discipline). -/
theorem tableSet_inv {t : Table} (hinv : TableINV t) {key : ObjString}
    (hcons : ∀ (i : Nat) (e : Entry) (k0 : ObjString), t.entries[i]? = some e →
      e.key = some k0 → k0.sid = key.sid → k0 = key) (v : Value) :
    TableINV (tableSet t key v).2 := by
  rcases sid_cases t key with habs | ⟨s, es, k0, hs, hk, hsid⟩
  · obtain ⟨t2, hrun, hinv2, _, _⟩ := tableSet_absent hinv habs v
    rw [hrun]
    exact hinv2
  · -- the record stored under this sid is the key itself
    have hk0 : k0 = key := hcons s es k0 hs hk hsid
    subst hk0
    by_cases hg : 4 * (t.count + 1) > 3 * t.capacity
    · -- growth, then overwrite
      have hc1 : 0 < growCapacity t.capacity := by
        unfold growCapacity
        split <;> omega
      have hb : 4 * (t.count + 1) ≤ 3 * growCapacity t.capacity := by
        have := hinv.load
        unfold growCapacity
        split <;> omega
      obtain ⟨hinv1, hcap1, _, _, hivb⟩ := adjustCapacity_inv hinv hc1 hb
      set t1 := adjustCapacity t (growCapacity t.capacity) with ht1
      obtain ⟨s1, hs1⟩ := hivb s es k0 hs hk
      have hfind1 := findEntry_found_inv hinv1 hs1 rfl
      have hrun : tableSet t k0 v = (false,
          ⟨t1.count, t1.capacity, t1.entries.set s1 ⟨some k0, v⟩⟩) := by
        unfold tableSet
        rw [if_pos hg]
        simp only [hfind1, hs1, Option.isNone_some, Bool.false_and,
          Bool.false_eq_true, if_false]
      rw [hrun]
      exact overwrite_key_inv hinv1 hs1 rfl v
    · have hfind := findEntry_found_inv hinv hs hk
      have h1 : es.key.isNone = false := by rw [hk]; rfl
      have hrun : tableSet t k0 v = (false,
          ⟨t.count, t.capacity, t.entries.set s ⟨some k0, v⟩⟩) := by
        unfold tableSet
        rw [if_neg hg]
        simp only [hfind, hs, h1, Bool.false_and, Bool.false_eq_true, if_false]
      rw [hrun]
      exact overwrite_key_inv hinv hs hk v

/-- Under the invariant the `findEntry` probe loop returns a slot: the
capacity fuel never runs out. -/
theorem findEntry_ne_none {t : Table} (hinv : TableINV t) (hc : 0 < t.capacity)
    (key : ObjString) : findEntry t key ≠ none := by
  have hh : key.hash % t.capacity < t.capacity := mod_lt_of_pos _ hc
  obtain ⟨de, hde, ⟨ee, hget, hemp⟩, hpre⟩ := exists_first_empty hinv hc hh
  have hterm := findEntryGo_terminates hget hemp hpre t.capacity 0 none
    (Nat.zero_le _) (by omega)
  have hstart : (key.hash % t.capacity + 0) % t.capacity = key.hash % t.capacity := by
    rw [Nat.add_zero, Nat.mod_eq_of_lt hh]
  unfold findEntry
  rw [← hstart]
  exact hterm

/-- Under the invariant the `tableFindString` probe loop returns within
`capacity` steps. -/
theorem findString_ne_none {t : Table} (hinv : TableINV t) (hc : 0 < t.capacity)
    (chars : List Nat) (length hash : Nat) :
    findStringGo t.entries t.capacity chars length hash t.capacity
      (hash % t.capacity) ≠ none := by
  have hh : hash % t.capacity < t.capacity := mod_lt_of_pos _ hc
  obtain ⟨de, hde, ⟨ee, hget, hemp⟩, hpre⟩ := exists_first_empty hinv hc hh
  have hterm := findStringGo_terminates chars length hget hemp hpre t.capacity 0
    (Nat.zero_le _) (by omega)
  have hstart : (hash % t.capacity + 0) % t.capacity = hash % t.capacity := by
    rw [Nat.add_zero, Nat.mod_eq_of_lt hh]
  rw [← hstart]
  exact hterm

/-- Tables reachable through the public API of src/table.c.  The side
condition on `set` models the C pointer discipline: a key pointer equal to a
stored key pointer is that stored key. -/
inductive Reachable : Table → Prop where
  | init : Reachable initTable
  | set : ∀ {t : Table} {k : ObjString} {v : Value}, Reachable t →
      (∀ (i : Nat) (e : Entry) (k0 : ObjString), t.entries[i]? = some e →
        e.key = some k0 → k0.sid = k.sid → k0 = k) →
      Reachable (tableSet t k v).2
  | del : ∀ {t : Table} {k : ObjString}, Reachable t →
      Reachable (tableDelete t k).2

/-- Every reachable table satisfies the invariant. -/
theorem reachable_inv {t : Table} (h : Reachable t) : TableINV t := by
  induction h with
  | init => exact initTable_inv
  | set hr hcons ih => exact tableSet_inv ih hcons _
  | del hr ih => exact tableDelete_inv ih _

/-! ## The interner lookup under the invariant -/

theorem getElem?_set_cases {l : List Entry} {r i : Nat} {a e : Entry}
    (h : (l.set r a)[i]? = some e) :
    (i = r ∧ e = a) ∨ (i ≠ r ∧ l[i]? = some e) := by
  by_cases hir : i = r
  · subst hir
    rcases Nat.lt_or_ge i l.length with hlt | hge
    · rw [List.getElem?_set_eq_of_lt _ hlt] at h
      cases h
      exact Or.inl ⟨rfl, rfl⟩
    · rw [List.set_eq_of_length_le hge] at h
      exact Or.inr ⟨fun _ => by
        have := (List.getElem?_eq_some.mp h).1
        omega, h⟩
  · right
    refine ⟨hir, ?_⟩
    rw [← h]
    symm
    exact List.getElem?_set_ne (fun hh => hir hh.symm)

/-- Whatever `findStringGo` returns as a hit is a stored key matching the
query. -/
theorem findStringGo_sound {es : List Entry} {cap : Nat} {chars : List Nat}
    {length hash : Nat} :
    ∀ (fuel index : Nat) (r : ObjString),
      findStringGo es cap chars length hash fuel index = some (some r) →
      ∃ (i : Nat) (e : Entry), es[i]? = some e ∧ e.key = some r ∧
        r.chars.length = length ∧ r.hash = hash ∧ r.chars = chars.take length := by
  intro fuel
  induction fuel with
  | zero => intro index r h; cases h
  | succ n ih =>
    intro index r h
    rw [findStringGo] at h
    cases hget : es[index]? with
    | none => rw [hget] at h; cases h
    | some e =>
      simp only [hget] at h
      cases hkey : e.key with
      | none =>
        simp only [hkey] at h
        by_cases hnil : isNil e.value = true
        · rw [if_pos hnil] at h
          cases h
        · rw [if_neg hnil] at h
          exact ih _ r h
      | some k =>
        simp only [hkey] at h
        by_cases hm : (k.chars.length = length && k.hash = hash
            && decide (k.chars = chars.take length)) = true
        · rw [if_pos hm] at h
          cases h
          simp only [Bool.and_eq_true, decide_eq_true_eq] at hm
          exact ⟨index, e, hget, hkey, hm.1.1, hm.1.2, hm.2⟩
        · rw [if_neg hm] at h
          exact ih _ r h

/-- Under the invariant, querying the interner with the exact content, length
and hash of a stored key whose content occurs in no other slot returns that
key. -/
theorem tableFindString_found {t : Table} (hinv : TableINV t) {s : Nat}
    {es : Entry} {k : ObjString} (hs : t.entries[s]? = some es)
    (hk : es.key = some k)
    (huniqc : ∀ (i : Nat) (e : Entry) (k2 : ObjString), t.entries[i]? = some e →
      e.key = some k2 → k2.chars = k.chars → i = s) :
    tableFindString t k.chars k.chars.length k.hash = some k := by
  have hslt : s < t.capacity := slot_lt hinv hs
  have hc : 0 < t.capacity := Nat.lt_of_le_of_lt (Nat.zero_le _) hslt
  have hcount := count_pos_of_key hinv hs hk
  have hh : k.hash % t.capacity < t.capacity := mod_lt_of_pos _ hc
  set cap := t.capacity with hcap
  have hd : dist cap (k.hash % cap) s < cap := dist_lt hc
  have hpos : (k.hash % cap + dist cap (k.hash % cap) s) % cap = s := pos_dist hh hslt
  have hmatch : (k.chars.length = k.chars.length && k.hash = k.hash
      && decide (k.chars = k.chars.take k.chars.length)) = true := by
    simp [List.take_length]
  have hpath : ∀ j, j < dist cap (k.hash % cap) s →
      ∃ e : Entry, t.entries[(k.hash % cap + j) % cap]? = some e ∧
        trulyEmpty e = false ∧
        (∀ k2 : ObjString, e.key = some k2 → (k2.chars.length = k.chars.length
          && k2.hash = k.hash && decide (k2.chars = k.chars.take k.chars.length))
            = false) := by
    intro j hj
    have hpj := hinv.probe s es k hs hk j (by unfold home; exact hj)
    unfold home at hpj
    obtain ⟨e2, hget2, hne2⟩ := hpj
    refine ⟨e2, hget2, hne2, ?_⟩
    intro k2 hkey2
    by_contra hcon
    simp only [Bool.not_eq_false, Bool.and_eq_true, decide_eq_true_eq] at hcon
    have hcc : k2.chars = k.chars := by
      rw [hcon.2, List.take_length]
    have hij : (k.hash % cap + j) % cap = s := huniqc _ e2 k2 hget2 hkey2 hcc
    rw [← hpos] at hij
    have := pos_inj (Nat.lt_trans hj hd) hd hij
    omega
  have hrun := findStringGo_found (by rw [hpos]; exact hs) hk hmatch hpath cap 0
    (Nat.zero_le _) (by omega)
  unfold tableFindString
  rw [if_neg (by omega)]
  have hstart : (k.hash % cap + 0) % cap = k.hash % cap := by
    rw [Nat.add_zero, Nat.mod_eq_of_lt hh]
  rw [← hcap, ← hstart, hrun]
  rfl

/-- Every key present after a successful insertion is the inserted key or a
key that was already stored. -/
theorem tableSet_key_origin {t : Table} (hinv : TableINV t) {key : ObjString}
    (habs : ∀ (i : Nat) (e : Entry) (k2 : ObjString), t.entries[i]? = some e →
      e.key = some k2 → k2.sid ≠ key.sid) (v : Value) {t2 : Table}
    (hrun : tableSet t key v = (true, t2)) :
    ∀ (i : Nat) (e : Entry) (k2 : ObjString), t2.entries[i]? = some e →
      e.key = some k2 → k2 = key ∨ ∃ (j : Nat) (e0 : Entry),
        t.entries[j]? = some e0 ∧ e0.key = some k2 := by
  by_cases hg : 4 * (t.count + 1) > 3 * t.capacity
  · have hc1 : 0 < growCapacity t.capacity := by
      unfold growCapacity
      split <;> omega
    have hb : 4 * (t.count + 1) ≤ 3 * growCapacity t.capacity := by
      have := hinv.load
      unfold growCapacity
      split <;> omega
    obtain ⟨hinv1, hcap1, hload1, hiva, _⟩ := adjustCapacity_inv hinv hc1 hb
    set t1 := adjustCapacity t (growCapacity t.capacity) with ht1
    have hc1b : 0 < t1.capacity := by rw [hcap1]; exact hc1
    have habs1 : ∀ (i : Nat) (e : Entry) (k2 : ObjString),
        t1.entries[i]? = some e → e.key = some k2 → k2.sid ≠ key.sid := by
      intro i e k2 hgi hki
      obtain ⟨j, hj⟩ := hiva i e k2 hgi hki
      exact habs j ⟨some k2, e.value⟩ k2 hj rfl
    obtain ⟨p, er, hp, hget, hkn, hdisj, hinv2, hrun2⟩ :=
      tableSet_step v (if_pos hg) hinv1 hc1b habs1 (by rw [hcap1]; exact hload1)
    rw [hrun] at hrun2
    have ht2 : t2 = ⟨(if trulyEmpty er = true then t1.count + 1 else t1.count),
        t1.capacity, t1.entries.set ((key.hash % t1.capacity + p) % t1.capacity)
          ⟨some key, v⟩⟩ := by
      cases hrun2
      rfl
    intro i e k2 hgi hki
    rw [ht2] at hgi
    rcases getElem?_set_cases hgi with ⟨_, he⟩ | ⟨_, hold⟩
    · subst he
      cases hki
      exact Or.inl rfl
    · obtain ⟨j, hj⟩ := hiva i e k2 hold hki
      exact Or.inr ⟨j, ⟨some k2, e.value⟩, hj, rfl⟩
  · have hc : 0 < t.capacity := by omega
    obtain ⟨p, er, hp, hget, hkn, hdisj, hinv2, hrun2⟩ :=
      tableSet_step v (if_neg hg) hinv hc habs (by omega)
    rw [hrun] at hrun2
    have ht2 : t2 = ⟨(if trulyEmpty er = true then t.count + 1 else t.count),
        t.capacity, t.entries.set ((key.hash % t.capacity + p) % t.capacity)
          ⟨some key, v⟩⟩ := by
      cases hrun2
      rfl
    intro i e k2 hgi hki
    rw [ht2] at hgi
    rcases getElem?_set_cases hgi with ⟨_, he⟩ | ⟨_, hold⟩
    · subst he
      cases hki
      exact Or.inl rfl
    · exact Or.inr ⟨i, e, hold, hki⟩

/-! ## The string interner of src/object.c -/

/-- `hashString` (src/object.c:106-115): FNV-1a over the bytes, with the
`uint32_t` wrap-around made explicit. -/
def hashString (chars : List Nat) : Nat :=
  chars.foldl (fun h b => ((h ^^^ b) * 16777619) % 4294967296) 2166136261

/-- The part of the VM state the interner touches: the `vm.strings` table and
a fresh-pointer supply (`nextSid` models the address of the next allocation). -/
structure VMStr where
  strings : Table
  nextSid : Nat
deriving DecidableEq

/-- `allocateString` (src/object.c:84-101): build the object and add it to the
set of unique strings (`tableSet(&vm.strings, string, NIL_VAL)`).  The
GC-protection push/pop pair around the insertion does not change the
interner state and is omitted. -/
def allocateString (chars : List Nat) (hash : Nat) (st : VMStr) :
    ObjString × VMStr :=
  let s : ObjString := ⟨st.nextSid, chars, hash⟩
  (s, ⟨(tableSet st.strings s .vNil).2, st.nextSid + 1⟩)

/-- `copyString` (src/object.c:120-136). -/
def copyString (chars : List Nat) (st : VMStr) : ObjString × VMStr :=
  match tableFindString st.strings chars chars.length (hashString chars) with
  | some interned => (interned, st)
  | none => allocateString chars (hashString chars) st

/-- `takeString` (src/object.c:142-154): identical interning logic; the only
difference in C is ownership of the byte buffer. -/
def takeString (chars : List Nat) (st : VMStr) : ObjString × VMStr :=
  match tableFindString st.strings chars chars.length (hashString chars) with
  | some interned => (interned, st)
  | none => allocateString chars (hashString chars) st

/-- Invariant of the interner state: the strings table satisfies the table
invariant, every stored key carries its own FNV-1a hash, equal content means
equal key record (interning uniqueness), and every stored identity is below
the fresh-pointer supply. -/
structure StrINV (st : VMStr) : Prop where
  tinv : TableINV st.strings
  hashOk : ∀ (i : Nat) (e : Entry) (k : ObjString),
    st.strings.entries[i]? = some e → e.key = some k →
      k.hash = hashString k.chars
  contentUniq : ∀ (i j : Nat) (ei ej : Entry) (ki kj : ObjString),
    st.strings.entries[i]? = some ei → ei.key = some ki →
    st.strings.entries[j]? = some ej → ej.key = some kj →
    ki.chars = kj.chars → ki = kj
  sidBound : ∀ (i : Nat) (e : Entry) (k : ObjString),
    st.strings.entries[i]? = some e → e.key = some k → k.sid < st.nextSid

theorem strINV_init (n : Nat) : StrINV ⟨initTable, n⟩ := by
  refine ⟨initTable_inv, ?_, ?_, ?_⟩ <;>
    intro i
  · intro e k h
    simp [initTable] at h
  · intro j ei ej ki kj h
    simp [initTable] at h
  · intro e k h
    simp [initTable] at h

/-- If the interner lookup misses, no stored key has the queried content. -/
theorem findString_none_no_content {st : VMStr} (hinv : StrINV st)
    {chars : List Nat}
    (hnone : tableFindString st.strings chars chars.length (hashString chars)
      = none) :
    ∀ (i : Nat) (e : Entry) (k2 : ObjString), st.strings.entries[i]? = some e →
      e.key = some k2 → k2.chars ≠ chars := by
  intro i e k2 hgi hki hcc
  have huniqc : ∀ (i2 : Nat) (e2 : Entry) (k3 : ObjString),
      st.strings.entries[i2]? = some e2 → e2.key = some k3 →
      k3.chars = k2.chars → i2 = i := by
    intro i2 e2 k3 hg2 hk2 hc3
    have hrec : k3 = k2 := hinv.contentUniq i2 i e2 e k3 k2 hg2 hk2 hgi hki hc3
    subst hrec
    exact hinv.tinv.uniq i2 i e2 e k3 k3 hg2 hk2 hgi hki rfl
  have hfound := tableFindString_found hinv.tinv hgi hki huniqc
  rw [hcc] at hfound
  have hhash : k2.hash = hashString chars := by
    rw [hinv.hashOk i e k2 hgi hki, hcc]
  rw [hhash] at hfound
  rw [hfound] at hnone
  cases hnone

/-- A `tableFindString` hit returns a stored key matching the query. -/
theorem tableFindString_sound {t : Table} {chars : List Nat} {length hash : Nat}
    {r : ObjString} (h : tableFindString t chars length hash = some r) :
    ∃ (i : Nat) (e : Entry), t.entries[i]? = some e ∧ e.key = some r ∧
      r.chars.length = length ∧ r.hash = hash ∧ r.chars = chars.take length := by
  unfold tableFindString at h
  by_cases hc0 : t.count = 0
  · rw [if_pos hc0] at h
    cases h
  · rw [if_neg hc0] at h
    exact findStringGo_sound _ _ r (Option.join_eq_some.mp h)

/-- Specification of the interner (`takeString`, and equally `copyString`):
the returned reference carries the requested bytes, the interner invariant is
maintained, the reference is retrievable by `tableFindString`, and a repeated
interning of the same bytes returns the same reference without touching the
state. -/
theorem takeString_spec {st : VMStr} (hinv : StrINV st) (chars : List Nat) :
    ∃ (r : ObjString) (st₁ : VMStr),
      takeString chars st = (r, st₁) ∧
      r.chars = chars ∧
      StrINV st₁ ∧
      tableFindString st₁.strings chars chars.length (hashString chars)
        = some r ∧
      takeString chars st₁ = (r, st₁) := by
  cases hfind : tableFindString st.strings chars chars.length (hashString chars) with
  | some r =>
    obtain ⟨i, e, hgi, hki, hlen, hhash, hcc⟩ := tableFindString_sound hfind
    have hrc : r.chars = chars := by
      rw [hcc, List.take_length]
    have hrun : takeString chars st = (r, st) := by
      unfold takeString
      rw [hfind]
    exact ⟨r, st, hrun, hrc, hinv, hfind, hrun⟩
  | none =>
    set snew : ObjString := ⟨st.nextSid, chars, hashString chars⟩ with hsnew
    have habs : ∀ (i : Nat) (e : Entry) (k2 : ObjString),
        st.strings.entries[i]? = some e → e.key = some k2 →
          k2.sid ≠ snew.sid := by
      intro i e k2 hgi hki
      have := hinv.sidBound i e k2 hgi hki
      show k2.sid ≠ st.nextSid
      omega
    obtain ⟨t2, hrun, hinv2, hcpos, r0, hslot⟩ :=
      tableSet_absent hinv.tinv habs Value.vNil
    have korigin := tableSet_key_origin hinv.tinv habs Value.vNil hrun
    have noContent := findString_none_no_content hinv hfind
    set st₁ : VMStr := ⟨t2, st.nextSid + 1⟩ with hst₁
    have hstep : takeString chars st = (snew, st₁) := by
      have h2 : (tableSet st.strings snew Value.vNil).2 = t2 := by rw [hrun]
      unfold takeString allocateString
      simp only [hfind]
      rw [hst₁]
      show (snew, VMStr.mk (tableSet st.strings snew Value.vNil).2 (st.nextSid + 1))
          = (snew, VMStr.mk t2 (st.nextSid + 1))
      rw [h2]
    have hsinv : StrINV st₁ := by
      refine ⟨hinv2, ?_, ?_, ?_⟩
      · intro i e k hgi hki
        rcases korigin i e k hgi hki with hk | ⟨j, e0, hj, hk0⟩
        · subst hk
          rfl
        · exact hinv.hashOk j e0 k hj hk0
      · intro i j ei ej ki kj hgi hki hgj hkj hcc
        rcases korigin i ei ki hgi hki with hki2 | ⟨i0, e0, hi0, hk0⟩
        · rcases korigin j ej kj hgj hkj with hkj2 | ⟨j0, e1, hj0, hk1⟩
          · rw [hki2, hkj2]
          · exfalso
            subst hki2
            apply noContent j0 e1 kj hj0 hk1
            rw [← hcc]
        · rcases korigin j ej kj hgj hkj with hkj2 | ⟨j0, e1, hj0, hk1⟩
          · exfalso
            subst hkj2
            apply noContent i0 e0 ki hi0 hk0
            rw [hcc]
          · exact hinv.contentUniq i0 j0 e0 e1 ki kj hi0 hk0 hj0 hk1 hcc
      · intro i e k hgi hki
        rcases korigin i e k hgi hki with hk | ⟨j, e0, hj, hk0⟩
        · subst hk
          show st.nextSid < st.nextSid + 1
          omega
        · have := hinv.sidBound j e0 k hj hk0
          show k.sid < st.nextSid + 1
          omega
    have hfound : tableFindString t2 chars chars.length (hashString chars)
        = some snew := by
      have huniqc : ∀ (i2 : Nat) (e2 : Entry) (k3 : ObjString),
          t2.entries[i2]? = some e2 → e2.key = some k3 →
          k3.chars = snew.chars → i2 = r0 := by
        intro i2 e2 k3 hg2 hk2 hc3
        rcases korigin i2 e2 k3 hg2 hk2 with hk3 | ⟨j0, e0, hj0, hk0⟩
        · subst hk3
          exact hinv2.uniq i2 r0 e2 ⟨some snew, .vNil⟩ snew snew hg2 hk2 hslot
            rfl rfl
        · exfalso
          exact noContent j0 e0 k3 hj0 hk0 hc3
      exact tableFindString_found hinv2 hslot rfl huniqc
    have hsecond : takeString chars st₁ = (snew, st₁) := by
      unfold takeString
      rw [hst₁]
      show (match tableFindString t2 chars chars.length (hashString chars) with
        | some interned => (interned, (⟨t2, st.nextSid + 1⟩ : VMStr))
        | none => allocateString chars (hashString chars) ⟨t2, st.nextSid + 1⟩)
          = (snew, st₁)
      rw [hfound, hst₁]
    exact ⟨snew, st₁, hstep, rfl, hsinv, hfound, hsecond⟩

/-! ## The VM opcode handlers of src/vm.c -/

/-- `InterpretResult` (src/include/vm.h:49-54). -/
inductive InterpretResult where
  | INTERPRET_OK
  | INTERPRET_COMPILE_ERROR
  | INTERPRET_RUNTIME_ERROR
deriving DecidableEq

/-- The `runtimeError` messages issued by `run()` (src/vm.c), one constructor
per format string. -/
inductive RuntimeErr where
  | undefinedVariable (name : ObjString)
  | operandsMustBeNumbers
  | operandsMustBe2NumbersOr2Strings
  | operandMustBeANumber
deriving DecidableEq

/-- The `OP_SET_GLOBAL` case of `run()` (src/vm.c:182-193): attempt the set;
when `tableSet` reports a new key, delete the zombie entry, report
*Undefined variable* and return `INTERPRET_RUNTIME_ERROR`.  `top` is
`peek(0)`; it is not popped on either path. -/
def opSetGlobal (globals : Table) (name : ObjString) (top : Value) :
    Table × Option (RuntimeErr × InterpretResult) :=
  match tableSet globals name top with
  | (true, g) => ((tableDelete g name).2,
      some (.undefinedVariable name, .INTERPRET_RUNTIME_ERROR))
  | (false, g) => (g, none)

/-- The VM state the `OP_ADD` handler touches: the value stack (head = top)
and the interner. -/
structure VmState where
  stack : List Value
  strs : VMStr
deriving DecidableEq

/-- `concatenate` (src/vm.c:91-104): pop `b`, pop `a`, build
`a.chars ++ b.chars` and intern it via `takeString`, push the result.  It is
only invoked with two string operands; other stack shapes are unreachable
and modelled as no-ops. -/
def concatenate (st : VmState) : VmState :=
  match st.stack with
  | .vObj b :: .vObj a :: rest =>
    let res := takeString (a.chars ++ b.chars) st.strs
    ⟨.vObj res.1 :: rest, res.2⟩
  | _ => st

/-- The `OP_ADD` case of `run()` (src/vm.c:219-235).  `none` models the
stack underflow that compiled bytecode never produces (the C code does not
guard against it). -/
def opAdd (st : VmState) :
    Option (Except (RuntimeErr × InterpretResult) VmState) :=
  match st.stack with
  | b :: a :: rest =>
    match b, a with
    | .vObj _, .vObj _ => some (.ok (concatenate st))
    | .vNumber nb, .vNumber na =>
      some (.ok ⟨.vNumber (na + nb) :: rest, st.strs⟩)
    | _, _ => some (.error (.operandsMustBe2NumbersOr2Strings,
        .INTERPRET_RUNTIME_ERROR))
  | _ => none

/-! ## The collector phases of src/memory.c -/

/-- The `Obj` header fields the sweep phase reads (src/include/object.h:33).
`oid` is the pointer identity. -/
structure ObjHeader where
  oid : Nat
  isMarked : Bool
deriving DecidableEq

/-- `sweep` (src/memory.c:240-266): walk the intrusive list; clear the mark
of survivors, unlink and free unmarked objects.  Returns the surviving list
and the freed objects. -/
def sweep : List ObjHeader → List ObjHeader × List ObjHeader
  | [] => ([], [])
  | o :: rest =>
    let res := sweep rest
    if o.isMarked then (⟨o.oid, false⟩ :: res.1, res.2)
    else (res.1, o :: res.2)

/-- The C read `entry->key->obj.isMarked`, resolved through the object
list by pointer identity. -/
def markedIn (objs : List ObjHeader) (sid : Nat) : Bool :=
  match objs.find? (fun o => o.oid = sid) with
  | some o => o.isMarked
  | none => false

/-- The VM state `collectGarbage` cleans up: the intrusive object list and
the interned-strings table. -/
structure GCState where
  objects : List ObjHeader
  strings : Table
deriving DecidableEq

/-- The clean-up phases of `collectGarbage` (src/memory.c:271-285) that
follow `markRoots`/`traceReferences`: the `isMarked` flags of `objects` hold
the trace result; then `tableRemoveWhite(&vm.strings)` and `sweep()` run in
that order.  Returns the new state and the freed objects. -/
def collectSweepPhase (s : GCState) : GCState × List ObjHeader :=
  let strings := tableRemoveWhite (markedIn s.objects) s.strings
  let res := sweep s.objects
  (⟨res.1, strings⟩, res.2)

/-- `sweep` keeps exactly the marked objects (marks cleared, order kept) and
frees exactly the unmarked ones. -/
theorem sweep_spec (l : List ObjHeader) :
    (sweep l).1 = (l.filter (fun o => o.isMarked)).map (fun o => ⟨o.oid, false⟩) ∧
    (sweep l).2 = l.filter (fun o => !o.isMarked) := by
  induction l with
  | nil => exact ⟨rfl, rfl⟩
  | cons o rest ih =>
    constructor
    · show (sweep (o :: rest)).1 = _
      rw [sweep]
      cases hm : o.isMarked <;> simp [hm, ih.1, ih.2]
    · show (sweep (o :: rest)).2 = _
      rw [sweep]
      cases hm : o.isMarked <;> simp [hm, ih.1, ih.2]

/-- The `tableRemoveWhite` loop, processing the first `m` slots: invariant
kept, capacity kept, unprocessed slots untouched, processed slots hold only
marked keys. -/
theorem removeWhite_fold (marked : Nat → Bool) {t : Table} (hinv : TableINV t) :
    ∀ m : Nat,
      TableINV ((List.range m).foldl (removeWhiteStep marked) t) ∧
      ((List.range m).foldl (removeWhiteStep marked) t).capacity = t.capacity ∧
      (∀ j : Nat, m ≤ j →
        ((List.range m).foldl (removeWhiteStep marked) t).entries[j]?
          = t.entries[j]?) ∧
      (∀ (j : Nat) (e : Entry) (k : ObjString), j < m →
        ((List.range m).foldl (removeWhiteStep marked) t).entries[j]? = some e →
        e.key = some k → marked k.sid = true) := by
  intro m
  induction m with
  | zero =>
    exact ⟨hinv, rfl, fun j _ => rfl, fun j e k hj => absurd hj (by omega)⟩
  | succ n ih =>
    obtain ⟨ih1, ih2, ih3, ih4⟩ := ih
    set tn := (List.range n).foldl (removeWhiteStep marked) t with htn
    have hfold : (List.range (n + 1)).foldl (removeWhiteStep marked) t
        = removeWhiteStep marked tn n := by
      rw [List.range_succ, List.foldl_append]
      rfl
    rw [hfold]
    cases hget : tn.entries[n]? with
    | none =>
      have hstep : removeWhiteStep marked tn n = tn := by
        unfold removeWhiteStep
        rw [hget]
      rw [hstep]
      refine ⟨ih1, ih2, fun j hj => ih3 j (by omega), ?_⟩
      intro j e k hj hgj hkj
      by_cases hjn : j = n
      · subst hjn
        rw [hget] at hgj
        cases hgj
      · exact ih4 j e k (by omega) hgj hkj
    | some e =>
      cases hkey : e.key with
      | none =>
        have hstep : removeWhiteStep marked tn n = tn := by
          unfold removeWhiteStep
          rw [hget]
          simp only [hkey]
        rw [hstep]
        refine ⟨ih1, ih2, fun j hj => ih3 j (by omega), ?_⟩
        intro j e2 k hj hgj hkj
        by_cases hjn : j = n
        · subst hjn
          rw [hget] at hgj
          cases hgj
          rw [hkey] at hkj
          cases hkj
        · exact ih4 j e2 k (by omega) hgj hkj
      | some k0 =>
        cases hmk : marked k0.sid with
        | true =>
          have hstep : removeWhiteStep marked tn n = tn := by
            unfold removeWhiteStep
            rw [hget]
            simp only [hkey, hmk, Bool.not_true, Bool.false_eq_true, if_false]
          rw [hstep]
          refine ⟨ih1, ih2, fun j hj => ih3 j (by omega), ?_⟩
          intro j e2 k hj hgj hkj
          by_cases hjn : j = n
          · subst hjn
            rw [hget] at hgj
            cases hgj
            rw [hkey] at hkj
            cases hkj
            exact hmk
          · exact ih4 j e2 k (by omega) hgj hkj
        | false =>
          obtain ⟨hrun, hinv2, habs2⟩ := tableDelete_present ih1 hget hkey
          have hstep : removeWhiteStep marked tn n
              = ⟨tn.count, tn.capacity, tn.entries.set n ⟨none, .vBool true⟩⟩ := by
            unfold removeWhiteStep
            rw [hget]
            simp only [hkey, hmk, Bool.not_false, if_true, hrun]
          rw [hstep]
          have hnl : n < tn.entries.length := by
            exact (List.getElem?_eq_some.mp hget).1
          refine ⟨hinv2, ih2, ?_, ?_⟩
          · intro j hj
            show (tn.entries.set n ⟨none, .vBool true⟩)[j]? = t.entries[j]?
            rw [List.getElem?_set_ne (by omega)]
            exact ih3 j (by omega)
          · intro j e2 k hj hgj hkj
            by_cases hjn : j = n
            · subst hjn
              rw [List.getElem?_set_eq_of_lt _ hnl] at hgj
              cases hgj
              cases hkj
            · rw [List.getElem?_set_ne (fun h => hjn h.symm)] at hgj
              exact ih4 j e2 k (by omega) hgj hkj

/-- `tableRemoveWhite` keeps the invariant and leaves only marked keys. -/
theorem tableRemoveWhite_spec (marked : Nat → Bool) {t : Table}
    (hinv : TableINV t) :
    TableINV (tableRemoveWhite marked t) ∧
    (∀ (i : Nat) (e : Entry) (k : ObjString),
      (tableRemoveWhite marked t).entries[i]? = some e → e.key = some k →
        marked k.sid = true) := by
  obtain ⟨h1, h2, h3, h4⟩ := removeWhite_fold marked hinv t.capacity
  refine ⟨h1, ?_⟩
  intro i e k hgi hki
  by_cases hic : i < t.capacity
  · exact h4 i e k hic hgi hki
  · exfalso
    have : (tableRemoveWhite marked t).entries[i]? = t.entries[i]? :=
      h3 i (by omega)
    rw [this] at hgi
    have hnone : t.entries[i]? = none := by
      apply List.getElem?_eq_none
      rw [hinv.len]
      omega
    rw [hnone] at hgi
    cases hgi

/-! ## The allocator's collection trigger (src/memory.c:25-45)

`reallocate` is the single allocation routine.  Its only garbage-collection
trigger is the build-time `DEBUG_STRESS_GC` flag: when the flag is defined
and the allocation grows, `collectGarbage()` runs.  The function maintains no
byte accounting: there is no `bytes_allocated`, no `next_gc`, and
`collectGarbage` (src/memory.c:271-285) sets no threshold after a cycle. -/

/-- Whether one call to `reallocate(ptr, oldSize, newSize)` runs a
collection, as a function of the build-time stress flag and the sizes —
the complete trigger logic of src/memory.c:27-30. -/
def reallocateTriggersGC (stressGC : Bool) (oldSize newSize : Nat) : Bool :=
  stressGC && decide (oldSize < newSize)

/-! ## The value equality of src/value.c:82-111

`valuesEqual` compares the type tags, then booleans, nils and numbers
structurally.  In the `VAL_OBJ` case it casts **both** objects to
`ObjString` — whatever their actual kind — and compares the `length` field
and `length` bytes behind `chars`.  No pointer comparison is performed.  The
model below gives every heap object the two fields that cast reads
(`viewLength`, `viewChars`); for a string they are its real fields, for any
other kind they are whatever the type-confused read finds in memory. -/

namespace ValModel

/-- `ObjType` (src/include/object.h:19-28). -/
inductive ObjType where
  | OBJ_CLOSURE | OBJ_NATIVE | OBJ_FUNCTION | OBJ_STRING | OBJ_UPVALUE
  | OBJ_CLASS | OBJ_INSTANCE
deriving DecidableEq

/-- A heap object as `valuesEqual` sees it: its pointer identity, its kind
tag, and the `length`/`chars` fields that the `AS_STRING` cast reads at its
address (the real fields for `OBJ_STRING`, reinterpreted memory for any
other kind). -/
structure Obj where
  oid : Nat
  kind : ObjType
  viewLength : Nat
  viewChars : List Nat
deriving DecidableEq

/-- The `Value` union with an arbitrary heap object in the `VAL_OBJ` arm. -/
inductive Value where
  | vBool : Bool → Value
  | vNil : Value
  | vNumber : Int → Value
  | vObj : Obj → Value
deriving DecidableEq

/-- `valuesEqual` (src/value.c:82-111): tags first, structural for bool, nil
and number; for `VAL_OBJ` the length fields and `memcmp` of `length` bytes
through the `AS_STRING` cast — never the pointers. -/
def valuesEqual : Value → Value → Bool
  | .vBool a, .vBool b => a = b
  | .vNil, .vNil => true
  | .vNumber a, .vNumber b => a = b
  | .vObj a, .vObj b =>
    a.viewLength = b.viewLength
      && decide (a.viewChars.take a.viewLength = b.viewChars.take a.viewLength)
  | _, _ => false

end ValModel

/-! ## The comparison emission of the compiler (src/compiler.c:702-753)

The Pratt rule table (src/compiler.c:127-146) routes exactly the tokens
below to the `binary` infix rule; the enum members are taken from the uses
in src/compiler.c and src/vm.c (the defining headers chunk.h / scanner.h are
not part of the source tree). -/

/-- The token kinds handled by `binary` (src/compiler.c:708-752). -/
inductive TokenType where
  | TOKEN_BANG_EQUAL | TOKEN_EQUAL_EQUAL | TOKEN_GREATER | TOKEN_GREATER_EQUAL
  | TOKEN_LESS | TOKEN_LESS_EQUAL | TOKEN_PLUS | TOKEN_MINUS | TOKEN_STAR
  | TOKEN_SLASH
deriving DecidableEq

/-- The opcodes `binary` can emit. -/
inductive OpCode where
  | OP_EQUAL | OP_NOT | OP_GREATER | OP_LESS | OP_ADD | OP_SUBTRACT
  | OP_MULTIPLY | OP_DIVIDE
deriving DecidableEq

/-- The bytes emitted by the switch of `binary` (src/compiler.c:708-752)
after the right operand has been compiled: `emitBytes(a, b)` is the
two-element list, `emitByte(a)` the singleton. -/
def binaryEmission : TokenType → List OpCode
  | .TOKEN_BANG_EQUAL => [.OP_EQUAL, .OP_NOT]
  | .TOKEN_EQUAL_EQUAL => [.OP_EQUAL]
  | .TOKEN_GREATER => [.OP_GREATER]
  | .TOKEN_GREATER_EQUAL => [.OP_LESS, .OP_NOT]
  | .TOKEN_LESS => [.OP_LESS]
  | .TOKEN_LESS_EQUAL => [.OP_GREATER, .OP_NOT]
  | .TOKEN_PLUS => [.OP_ADD]
  | .TOKEN_MINUS => [.OP_SUBTRACT]
  | .TOKEN_STAR => [.OP_MULTIPLY]
  | .TOKEN_SLASH => [.OP_DIVIDE]

/-- The six comparison tokens of the precedence ladder (EQUALITY and
COMPARISON rows of the rule table, src/compiler.c:140-146). -/
def comparisonTokens : List TokenType :=
  [.TOKEN_BANG_EQUAL, .TOKEN_EQUAL_EQUAL, .TOKEN_GREATER,
   .TOKEN_GREATER_EQUAL, .TOKEN_LESS, .TOKEN_LESS_EQUAL]

/-! ## The claims -/

/-- C10: for every key, `tableGet` and `tableDelete` on a table whose count
is 0 return false, and `tableFindString` returns NULL, in each case through
the `count == 0` early return — so `hash % capacity`, a division by zero on
a freshly initialised table of capacity 0, is never evaluated.  The embedding
mirrors the guard placement of src/table.c:157, 175 and 197. -/
theorem C10_zero_count_guards (t : Table) (key : ObjString) (chars : List Nat)
    (length hash : Nat) (h : t.count = 0) :
    tableGet t key = none ∧ tableDelete t key = (false, t) ∧
    tableFindString t chars length hash = none := by
  refine ⟨?_, ?_, ?_⟩
  · unfold tableGet
    rw [if_pos h]
  · unfold tableDelete
    rw [if_pos h]
  · unfold tableFindString
    rw [if_pos h]

theorem C10_zero_count_guards_witness :
    initTable.count = 0 ∧
    (tableGet initTable ⟨0, [], 0⟩ = none ∧
      tableDelete initTable ⟨0, [], 0⟩ = (false, initTable) ∧
      tableFindString initTable [] 0 0 = none) :=
  ⟨rfl, C10_zero_count_guards initTable ⟨0, [], 0⟩ [] 0 0 rfl⟩

/-- C9: for every table reachable through `initTable`, `tableSet` and
`tableDelete` alone, the probe loops of `findEntry` and `tableFindString`
terminate: the load-factor discipline (double on 75%, minimum 8, rebuild
without tombstones, count grows only when a truly empty slot is consumed)
keeps at least one truly empty slot in the array, and the circular probe
reaches a verdict within `capacity` steps (the fuel of the embedding). -/
theorem C9_probe_termination {t : Table} (h : Reachable t)
    (hc : 0 < t.capacity) :
    (∃ (i : Nat) (e : Entry), t.entries[i]? = some e ∧ trulyEmpty e = true) ∧
    (∀ key : ObjString, findEntry t key ≠ none) ∧
    (∀ (chars : List Nat) (length hash : Nat),
      findStringGo t.entries t.capacity chars length hash t.capacity
        (hash % t.capacity) ≠ none) := by
  have hinv := reachable_inv h
  exact ⟨empty_exists hinv hc, fun key => findEntry_ne_none hinv hc key,
    fun chars length hash => findString_ne_none hinv hc chars length hash⟩

theorem C9_probe_termination_witness :
    Reachable (tableSet initTable ⟨0, [97], 5⟩ (.vNumber 3)).2 ∧
    0 < (tableSet initTable ⟨0, [97], 5⟩ (.vNumber 3)).2.capacity ∧
    findEntry (tableSet initTable ⟨0, [97], 5⟩ (.vNumber 3)).2 ⟨1, [98], 6⟩
      ≠ none := by
  have hr : Reachable (tableSet initTable ⟨0, [97], 5⟩ (.vNumber 3)).2 :=
    Reachable.set Reachable.init (by
      intro i e k0 hg
      simp [initTable] at hg)
  exact ⟨hr, by decide, (C9_probe_termination hr (by decide)).2.1 _⟩

/-- C7: the `binary` infix rule compiles every comparison operator using
only `OP_LESS`, `OP_GREATER`, `OP_EQUAL` and an optional trailing `OP_NOT`:
`>=` is LESS-then-NOT, `<=` is GREATER-then-NOT, `!=` is EQUAL-then-NOT, and
`<`, `>`, `==` are single opcodes (src/compiler.c:708-752). -/
theorem C7_comparison_emission :
    binaryEmission .TOKEN_GREATER_EQUAL = [.OP_LESS, .OP_NOT] ∧
    binaryEmission .TOKEN_LESS_EQUAL = [.OP_GREATER, .OP_NOT] ∧
    binaryEmission .TOKEN_BANG_EQUAL = [.OP_EQUAL, .OP_NOT] ∧
    binaryEmission .TOKEN_LESS = [.OP_LESS] ∧
    binaryEmission .TOKEN_GREATER = [.OP_GREATER] ∧
    binaryEmission .TOKEN_EQUAL_EQUAL = [.OP_EQUAL] ∧
    (comparisonTokens.all (fun tk => (binaryEmission tk).all
      (fun op => op == OpCode.OP_LESS || op == OpCode.OP_GREATER
        || op == OpCode.OP_EQUAL || op == OpCode.OP_NOT))) = true := by
  decide

/-- C4: evaluation of the collection trigger actually embedded from
src/memory.c:25-45.  The claim asserts a `bytes_allocated > next_gc`
threshold policy with grow factor 2, independent of the stress flag; the
code's complete trigger logic is `DEBUG_STRESS_GC ∧ newSize > oldSize`, and
without the stress flag no allocation ever starts a collection — there is no
byte accounting at all (no `bytes_allocated`, no `next_gc`; `collectGarbage`
sets no threshold). -/
theorem C4_no_threshold_trigger :
    reallocateTriggersGC false 0 1000000 = false ∧
    reallocateTriggersGC true 0 1 = true ∧
    (∀ oldSize newSize : Nat,
      reallocateTriggersGC false oldSize newSize = false) := by
  exact ⟨rfl, rfl, fun o n => rfl⟩

/-- C2: evaluation of `valuesEqual` (src/value.c:82-111) at the failing
input.  The claim asserts reference equality for non-string heap objects;
the code casts every `VAL_OBJ` operand to `ObjString` and compares the
`length` field plus `length` bytes behind `chars`, never the pointers: the
comparison is a function of the type-confused string view alone, and two
distinct non-string objects with coinciding views compare equal. -/
theorem C2_objects_compared_as_strings :
    (∀ a b : ValModel.Obj, ValModel.valuesEqual (.vObj a) (.vObj b)
      = (a.viewLength = b.viewLength && decide
          (a.viewChars.take a.viewLength = b.viewChars.take a.viewLength))) ∧
    ValModel.valuesEqual (.vObj ⟨1, .OBJ_FUNCTION, 2, [7, 7]⟩)
      (.vObj ⟨2, .OBJ_FUNCTION, 2, [7, 7]⟩) = true ∧
    (1 : Nat) ≠ 2 :=
  ⟨fun a b => rfl, by decide, by decide⟩

/-- C1: in every VM state whose globals table satisfies the invariant of
API-built tables (with the interning pointer discipline `hcons`), executing
`OP_SET_GLOBAL` with a name `n` that is not a retrievable key of the globals
table reports *Undefined variable*, makes `run` return
`INTERPRET_RUNTIME_ERROR`, and afterwards `n` is still not retrievable: the
`tableSet`-then-`tableDelete` rollback leaves no binding (src/vm.c:182-193).
-/
theorem C1_set_global_undefined {g : Table} (hinv : TableINV g)
    (hcons : ∀ (i : Nat) (e : Entry) (k0 : ObjString), g.entries[i]? = some e →
      e.key = some k0 → k0.sid = n.sid → k0 = n)
    (v : Value) (hget : tableGet g n = none) :
    ∃ g2 : Table,
      opSetGlobal g n v
        = (g2, some (.undefinedVariable n, .INTERPRET_RUNTIME_ERROR)) ∧
      tableGet g2 n = none := by
  -- the name is sid-absent: were its record stored, tableGet would find it
  have habs : ∀ (i : Nat) (e : Entry) (k2 : ObjString), g.entries[i]? = some e →
      e.key = some k2 → k2.sid ≠ n.sid := by
    intro i e k2 hgi hki hsid
    have hk2 : k2 = n := hcons i e k2 hgi hki hsid
    subst hk2
    have := tableGet_present hinv hgi hki
    rw [this] at hget
    cases hget
  obtain ⟨g1, hrun1, hinv1, hc1, r, hslot⟩ := tableSet_absent hinv habs v
  obtain ⟨hrun2, hinv2, habs2⟩ := tableDelete_present hinv1 hslot rfl
  refine ⟨(tableDelete g1 n).2, ?_, ?_⟩
  · unfold opSetGlobal
    rw [hrun1]
  · rw [hrun2]
    exact tableGet_absent hinv2 habs2

theorem C1_set_global_undefined_witness :
    ∃ g2 : Table,
      opSetGlobal initTable ⟨0, [120], 7⟩ (.vNumber 1)
        = (g2, some (.undefinedVariable ⟨0, [120], 7⟩,
            .INTERPRET_RUNTIME_ERROR)) ∧
      tableGet g2 ⟨0, [120], 7⟩ = none :=
  C1_set_global_undefined initTable_inv
    (by
      intro i e k0 hg
      simp [initTable] at hg)
    (.vNumber 1) rfl

/-- C5: after the clean-up phases of `collectGarbage` (the mark state of the
object list being the trace result): every surviving object on the intrusive
list has `isMarked = false`; the list contains exactly the objects that were
marked (order kept, marks cleared), every unmarked object having been freed
and unlinked; and the intern table retains no key that was unmarked when
tracing finished (src/memory.c:271-285, 240-266; src/table.c:239-247). -/
theorem C5_collect_garbage_cleanup (s : GCState) (hinv : TableINV s.strings) :
    (∀ o ∈ (collectSweepPhase s).1.objects, o.isMarked = false) ∧
    (collectSweepPhase s).1.objects
      = (s.objects.filter (fun o => o.isMarked)).map (fun o => ⟨o.oid, false⟩) ∧
    (collectSweepPhase s).2 = s.objects.filter (fun o => !o.isMarked) ∧
    (∀ (i : Nat) (e : Entry) (k : ObjString),
      (collectSweepPhase s).1.strings.entries[i]? = some e → e.key = some k →
        markedIn s.objects k.sid = true) := by
  obtain ⟨hs1, hs2⟩ := sweep_spec s.objects
  obtain ⟨hrw1, hrw2⟩ := tableRemoveWhite_spec (markedIn s.objects) hinv
  refine ⟨?_, ?_, ?_, ?_⟩
  · intro o ho
    have ho2 : o ∈ (s.objects.filter (fun o => o.isMarked)).map
        (fun o => (⟨o.oid, false⟩ : ObjHeader)) := by
      rw [← hs1]
      exact ho
    obtain ⟨o0, _, hval⟩ := List.mem_map.mp ho2
    rw [← hval]
  · exact hs1
  · exact hs2
  · intro i e k hgi hki
    exact hrw2 i e k hgi hki

theorem C5_collect_garbage_cleanup_witness :
    TableINV (GCState.mk [⟨0, true⟩, ⟨1, false⟩]
      (tableSet initTable ⟨0, [97], 5⟩ .vNil).2).strings ∧
    ((collectSweepPhase ⟨[⟨0, true⟩, ⟨1, false⟩],
        (tableSet initTable ⟨0, [97], 5⟩ .vNil).2⟩).1.objects
      = [⟨0, false⟩] ∧
     (collectSweepPhase ⟨[⟨0, true⟩, ⟨1, false⟩],
        (tableSet initTable ⟨0, [97], 5⟩ .vNil).2⟩).2 = [⟨1, false⟩]) := by
  have hinv : TableINV (tableSet initTable ⟨0, [97], 5⟩ .vNil).2 :=
    reachable_inv (Reachable.set Reachable.init (by
      intro i e k0 hg
      simp [initTable] at hg))
  have h := C5_collect_garbage_cleanup
    ⟨[⟨0, true⟩, ⟨1, false⟩], (tableSet initTable ⟨0, [97], 5⟩ .vNil).2⟩ hinv
  refine ⟨hinv, ?_, ?_⟩
  · rw [h.2.1]
    decide
  · rw [h.2.2.1]
    decide

/-- `copyString` and `takeString` run the same interning logic (they differ
in C only in the ownership of the byte buffer). -/
theorem copyString_eq_takeString (chars : List Nat) (st : VMStr) :
    copyString chars st = takeString chars st := by
  unfold copyString takeString
  cases h : tableFindString st.strings chars chars.length (hashString chars) <;>
    rfl

/-- C6: character sequences with equal byte content intern to the same
reference: after `copyString` returns `r`, the returned object carries those
bytes, a second `copyString` of the same bytes returns the very same `r`
without allocating (the state is unchanged), and `tableFindString` with
those bytes, that length and their FNV-1a hash returns that same reference
(src/object.c:120-136; src/table.c:192-220). -/
theorem C6_copyString_interning {st : VMStr} (hinv : StrINV st)
    (chars : List Nat) {r : ObjString} {st₁ : VMStr}
    (hrun : copyString chars st = (r, st₁)) :
    r.chars = chars ∧
    copyString chars st₁ = (r, st₁) ∧
    tableFindString st₁.strings chars chars.length (hashString chars)
      = some r := by
  rw [copyString_eq_takeString] at hrun
  obtain ⟨r2, st2, hrun2, hrc, hsinv, hfound, hsecond⟩ := takeString_spec hinv chars
  rw [hrun] at hrun2
  cases hrun2
  exact ⟨hrc, by rw [copyString_eq_takeString]; exact hsecond, hfound⟩

theorem C6_copyString_interning_witness :
    ∃ (r : ObjString) (st₁ : VMStr),
      copyString [97, 98] ⟨initTable, 0⟩ = (r, st₁) ∧
      (r.chars = [97, 98] ∧
        copyString [97, 98] st₁ = (r, st₁) ∧
        tableFindString st₁.strings [97, 98] (List.length [97, 98])
          (hashString [97, 98]) = some r) :=
  ⟨(copyString [97, 98] ⟨initTable, 0⟩).1, (copyString [97, 98] ⟨initTable, 0⟩).2,
    rfl, C6_copyString_interning (strINV_init 0) [97, 98] rfl⟩

/-- C3: with a pair of operands on top of the stack, `OP_ADD` pushes an
interned string holding the concatenation of the two operands when both are
strings (left operand first), pushes their numeric sum when both are
numbers, and otherwise reports *Operands must be 2 numbers or 2 strings*
and makes `run` return `INTERPRET_RUNTIME_ERROR` (src/vm.c:219-235,
91-104; src/object.c:142-154). -/
theorem C3_op_add (st : VmState) (hinv : StrINV st.strs) {b a : Value}
    {rest : List Value} (hstack : st.stack = b :: a :: rest) :
    (∀ sb sa : ObjString, b = .vObj sb → a = .vObj sa →
      ∃ (r : ObjString) (strs1 : VMStr),
        opAdd st = some (.ok ⟨.vObj r :: rest, strs1⟩) ∧
        r.chars = sa.chars ++ sb.chars ∧
        tableFindString strs1.strings (sa.chars ++ sb.chars)
          (sa.chars ++ sb.chars).length (hashString (sa.chars ++ sb.chars))
          = some r) ∧
    (∀ nb na : Int, b = .vNumber nb → a = .vNumber na →
      opAdd st = some (.ok ⟨.vNumber (na + nb) :: rest, st.strs⟩)) ∧
    ((¬ ∃ sb sa : ObjString, b = .vObj sb ∧ a = .vObj sa) →
     (¬ ∃ nb na : Int, b = .vNumber nb ∧ a = .vNumber na) →
      opAdd st = some (.error (.operandsMustBe2NumbersOr2Strings,
        .INTERPRET_RUNTIME_ERROR))) := by
  refine ⟨?_, ?_, ?_⟩
  · intro sb sa hb ha
    subst hb
    subst ha
    obtain ⟨r, strs1, hts, hrc, hsinv, hfound, _⟩ :=
      takeString_spec hinv (sa.chars ++ sb.chars)
    refine ⟨r, strs1, ?_, hrc, hfound⟩
    unfold opAdd concatenate
    rw [hstack]
    simp only [hts]
  · intro nb na hb ha
    subst hb
    subst ha
    unfold opAdd
    rw [hstack]
  · intro hns hnn
    unfold opAdd
    rw [hstack]
    cases b with
    | vObj sb =>
      cases a with
      | vObj sa => exact absurd ⟨sb, sa, rfl, rfl⟩ hns
      | vBool x => rfl
      | vNil => rfl
      | vNumber x => rfl
    | vNumber nb =>
      cases a with
      | vNumber na => exact absurd ⟨nb, na, rfl, rfl⟩ hnn
      | vBool x => rfl
      | vNil => rfl
      | vObj x => rfl
    | vBool xb =>
      cases a <;> rfl
    | vNil =>
      cases a <;> rfl

theorem C3_op_add_witness :
    ∃ (r : ObjString) (strs1 : VMStr),
      opAdd ⟨[.vObj ⟨5, [98], 9⟩, .vObj ⟨6, [97], 4⟩], ⟨initTable, 0⟩⟩
        = some (.ok ⟨[.vObj r], strs1⟩) ∧
      r.chars = [97] ++ [98] ∧
      tableFindString strs1.strings ([97] ++ [98]) ([97] ++ [98] : List Nat).length
        (hashString ([97] ++ [98])) = some r :=
  (C3_op_add ⟨[.vObj ⟨5, [98], 9⟩, .vObj ⟨6, [97], 4⟩], ⟨initTable, 0⟩⟩
    (strINV_init 0) rfl).1 ⟨5, [98], 9⟩ ⟨6, [97], 4⟩ rfl rfl

/-- C8 (amended): for every invariant table holding key `k`, `tableDelete`
returns true and replaces exactly `k`'s slot with a tombstone (key nil,
value `true`) without touching `count`; afterwards `tableGet` misses, a
subsequent `tableSet` of `k` returns true (new key) and `tableGet` then
yields the new value; and **provided the insertion does not trigger a
capacity grow** (count + 1 within the 75% load bound), the insertion reuses
a tombstone slot found by `findEntry` and leaves `count` unchanged.  (When a
grow intervenes, `adjustCapacity` discards all tombstones and the key lands
in a truly empty slot of the new array — see the counterexample.) -/
theorem C8_tombstone_lifecycle {t : Table} (hinv : TableINV t) {s : Nat}
    {k : ObjString} {v0 : Value} (hs : t.entries[s]? = some ⟨some k, v0⟩)
    (v : Value) :
    tableDelete t k = (true, ⟨t.count, t.capacity,
      t.entries.set s ⟨none, .vBool true⟩⟩) ∧
    tableGet (tableDelete t k).2 k = none ∧
    (tableSet (tableDelete t k).2 k v).1 = true ∧
    tableGet (tableSet (tableDelete t k).2 k v).2 k = some v ∧
    (4 * (t.count + 1) ≤ 3 * t.capacity →
      (tableSet (tableDelete t k).2 k v).2.capacity = t.capacity ∧
      (tableSet (tableDelete t k).2 k v).2.count = t.count ∧
      ∃ i : Nat, i < t.capacity ∧
        (∃ e : Entry, (tableDelete t k).2.entries[i]? = some e ∧
          isTombstone e = true) ∧
        (tableSet (tableDelete t k).2 k v).2.entries[i]? = some ⟨some k, v⟩) := by
  obtain ⟨hrund, hinv1, habs1⟩ := tableDelete_present hinv hs rfl
  have hslt : s < t.capacity := slot_lt hinv hs
  have hsl : s < t.entries.length := by rw [hinv.len]; exact hslt
  have hc : 0 < t.capacity := Nat.lt_of_le_of_lt (Nat.zero_le _) hslt
  set t1 : Table := ⟨t.count, t.capacity, t.entries.set s ⟨none, .vBool true⟩⟩
    with ht1
  have ht1b : (tableDelete t k).2 = t1 := by rw [hrund]
  obtain ⟨t2, hruns, hinv2, hc2, r2, hslot2⟩ := tableSet_absent hinv1 habs1 v
  have hget2 : tableGet t2 k = some v := tableGet_present hinv2 hslot2 rfl
  refine ⟨hrund, ?_, ?_, ?_, ?_⟩
  · rw [ht1b]
    exact tableGet_absent hinv1 habs1
  · rw [ht1b, hruns]
  · rw [ht1b, hruns]
    exact hget2
  · intro hng
    have hngb : ¬ 4 * (t1.count + 1) > 3 * t1.capacity := by
      show ¬ 4 * (t.count + 1) > 3 * t.capacity
      omega
    obtain ⟨p, er, hp, hgetr, hkn, hdisj, hinvc, hrunc⟩ :=
      tableSet_step v (if_neg hngb) hinv1 (show 0 < t1.capacity from hc) habs1
        (show 4 * (t1.count + 1) ≤ 3 * t1.capacity from hng)
    rw [hruns] at hrunc
    cases hrunc
    rw [ht1b, hruns]
    -- the slot findEntry returned is a tombstone: k's tombstoned slot lies
    -- on the probe path before its first truly empty slot
    have hat1 : t1.entries[s]? = some ⟨none, .vBool true⟩ := by
      show (t.entries.set s ⟨none, .vBool true⟩)[s]? = _
      exact List.getElem?_set_eq_of_lt _ hsl
    have hds : dist t.capacity (k.hash % t.capacity) s < t.capacity := dist_lt hc
    have hpos : (k.hash % t.capacity + dist t.capacity (k.hash % t.capacity) s)
        % t.capacity = s := pos_dist (mod_lt_of_pos _ hc) hslt
    have htomb : isTombstone er = true := by
      rcases hdisj with htomb | ⟨hte, hkeys⟩
      · exact htomb
      · exfalso
        rcases Nat.lt_trichotomy (dist t.capacity (k.hash % t.capacity) s) p
          with hlt | heq | hgt
        · obtain ⟨e, hge, hks⟩ := hkeys _ hlt
          rw [(show (k.hash % t1.capacity) = (k.hash % t.capacity) from rfl)] at hge
          rw [hpos, hat1] at hge
          cases hge
          cases hks
        · rw [← heq] at hgetr
          rw [(show (k.hash % t1.capacity) = (k.hash % t.capacity) from rfl)] at hgetr
          rw [hpos, hat1] at hgetr
          cases hgetr
          cases hte
        · have hprobe := hinv.probe s ⟨some k, v0⟩ k hs rfl p (by
            unfold home
            exact hgt)
          unfold home at hprobe
          obtain ⟨e2, hg2, hne2⟩ := hprobe
          have hpne : (k.hash % t.capacity + p) % t.capacity ≠ s := by
            intro hps
            rw [← hpos] at hps
            have := pos_inj (Nat.lt_trans hgt hds) hds hps
            omega
          have hsame : t1.entries[(k.hash % t.capacity + p) % t.capacity]?
              = t.entries[(k.hash % t.capacity + p) % t.capacity]? := by
            show (t.entries.set s ⟨none, .vBool true⟩)[_]? = _
            exact List.getElem?_set_ne (fun h => hpne h.symm)
          rw [(show (k.hash % t1.capacity) = (k.hash % t.capacity) from rfl),
            hsame, hg2] at hgetr
          cases hgetr
          rw [hne2] at hte
          cases hte
    have hteF : trulyEmpty er = false := by
      unfold isTombstone at htomb
      unfold trulyEmpty
      have h1 : er.key.isNone = true := by rw [hkn]; rfl
      have h2 : isNil er.value = false := by
        have := (Bool.and_eq_true .. ▸ htomb).2
        revert this
        cases isNil er.value <;> simp
      rw [h1, h2]
      rfl
    refine ⟨rfl, ?_, ?_⟩
    · show (if trulyEmpty er = true then t1.count + 1 else t1.count) = t.count
      rw [hteF]
      simp
    · refine ⟨(k.hash % t1.capacity + p) % t1.capacity, ?_, ⟨er, ?_, htomb⟩, ?_⟩
      · exact mod_lt_of_pos _ hc
      · exact hgetr
      · show (t1.entries.set ((k.hash % t1.capacity + p) % t1.capacity)
          ⟨some k, v⟩)[(k.hash % t1.capacity + p) % t1.capacity]? = _
        apply List.getElem?_set_eq_of_lt
        rw [hinv1.len]
        exact mod_lt_of_pos _ hc

theorem C8_tombstone_lifecycle_witness :
    (tableDelete (tableSet initTable ⟨0, [97], 5⟩ (.vNumber 7)).2 ⟨0, [97], 5⟩).1
      = true ∧
    tableGet (tableDelete (tableSet initTable ⟨0, [97], 5⟩ (.vNumber 7)).2
      ⟨0, [97], 5⟩).2 ⟨0, [97], 5⟩ = none ∧
    tableGet (tableSet (tableDelete (tableSet initTable ⟨0, [97], 5⟩
      (.vNumber 7)).2 ⟨0, [97], 5⟩).2 ⟨0, [97], 5⟩ (.vNumber 9)).2 ⟨0, [97], 5⟩
      = some (.vNumber 9) ∧
    ∃ i : Nat, i < (tableSet initTable ⟨0, [97], 5⟩ (.vNumber 7)).2.capacity ∧
      (∃ e : Entry, (tableDelete (tableSet initTable ⟨0, [97], 5⟩
        (.vNumber 7)).2 ⟨0, [97], 5⟩).2.entries[i]? = some e ∧
          isTombstone e = true) ∧
      (tableSet (tableDelete (tableSet initTable ⟨0, [97], 5⟩ (.vNumber 7)).2
        ⟨0, [97], 5⟩).2 ⟨0, [97], 5⟩ (.vNumber 9)).2.entries[i]?
        = some ⟨some ⟨0, [97], 5⟩, .vNumber 9⟩ := by
  have hinv : TableINV (tableSet initTable ⟨0, [97], 5⟩ (.vNumber 7)).2 :=
    reachable_inv (Reachable.set Reachable.init (by
      intro i e k0 hg
      simp [initTable] at hg))
  have h := C8_tombstone_lifecycle hinv
    (show (tableSet initTable ⟨0, [97], 5⟩ (.vNumber 7)).2.entries[5]?
      = some ⟨some ⟨0, [97], 5⟩, .vNumber 7⟩ by decide) (.vNumber 9)
  refine ⟨?_, h.2.1, h.2.2.2.1, (h.2.2.2.2 (by decide)).2.2⟩
  rw [h.1]

/-- Slots of the entry array holding a key with the given identity. -/
def keySlots (es : List Entry) (sid : Nat) : List Nat :=
  (List.range es.length).filter (fun i =>
    match es[i]? with
    | some e =>
      match e.key with
      | some k => decide (k.sid = sid)
      | none => false
    | none => false)

/-- Slots of the entry array holding a tombstone. -/
def tombstoneSlots (es : List Entry) : List Nat :=
  (List.range es.length).filter (fun i =>
    match es[i]? with
    | some e => isTombstone e
    | none => false)

/-- A capacity-8 table filled to count 6; its keys sit at their hash slots
(0, 2, 3, 4, 5 and — for the key of interest, hash 9 — slot 1). -/
def c8base : Table :=
  (tableSet (tableSet (tableSet (tableSet (tableSet (tableSet initTable
    ⟨0, [], 0⟩ (.vNumber 0)).2 ⟨1, [], 2⟩ (.vNumber 0)).2
    ⟨2, [], 3⟩ (.vNumber 0)).2 ⟨3, [], 4⟩ (.vNumber 0)).2
    ⟨4, [], 5⟩ (.vNumber 0)).2 ⟨9, [], 9⟩ (.vNumber 0)).2

/-- The table after deleting the key of interest: a tombstone at slot 1. -/
def c8t1 : Table := (tableDelete c8base ⟨9, [], 9⟩).2

/-- Re-inserting the key. -/
def c8res : Bool × Table := tableSet c8t1 ⟨9, [], 9⟩ (.vNumber 42)

/-- C8 (counterexample to the claim as stated): on this table the
re-insertion of the deleted key does **not** reuse the tombstone slot found
by `findEntry`.  `count + 1` exceeds the 75% load bound, so `tableSet` grows
the array from 8 to 16 slots; `adjustCapacity` rebuilds it without any
tombstone (the zombie slot 1 is discarded, not reused), and the key lands in
the truly empty slot 9 — an index that did not even exist in the tombstoned
table (`c8t1.entries[9]? = none`).  The deletion and lookup conjuncts of the
claim do hold, and `count` happens to return to 6 only because the rebuild
recomputed it. -/
theorem C8_counterexample :
    (tableDelete c8base ⟨9, [], 9⟩).1 = true ∧
    c8t1.capacity = 8 ∧
    c8t1.count = 6 ∧
    tombstoneSlots c8t1.entries = [1] ∧
    c8res.1 = true ∧
    c8res.2.capacity = 16 ∧
    c8res.2.count = 6 ∧
    keySlots c8res.2.entries 9 = [9] ∧
    tombstoneSlots c8res.2.entries = [] ∧
    c8t1.entries[9]? = none := by
  decide

-- Sanity checks of the executable model.
example : (tableSet initTable ⟨0, [97], 5⟩ (.vNumber 3)).1 = true := by decide
example : tableGet (tableSet initTable ⟨0, [97], 5⟩ (.vNumber 3)).2 ⟨0, [97], 5⟩
    = some (.vNumber 3) := by decide
example : (tableDelete (tableSet initTable ⟨0, [97], 5⟩ (.vNumber 3)).2 ⟨0, [97], 5⟩).1
    = true := by decide
example :
    tableGet (tableDelete (tableSet initTable ⟨0, [97], 5⟩ (.vNumber 3)).2
      ⟨0, [97], 5⟩).2 ⟨0, [97], 5⟩ = none := by decide

end Psim
